import Mathlib

/-!
Verification of the BareClaw MCP server orchestration core (mcp/server.py).

Python strings are modelled as lists of characters (`Str`).  Each modelled
function is translated directly from the source file; the comments cite the
Python construct being embedded.  Effectful boundaries (the spawned
subprocess, the filesystem) are abstracted as explicit inputs: the subprocess
outcome is a value of an outcome type, a file is `Option Str` (`none` when the
file does not exist), and a directory is `Option (List Str)` of file names.
-/

namespace Bareclaw

abbrev Str := List Char

/-- Whitespace predicate shared by `str.strip()` and the regex class `\s`
(the two sets coincide in CPython for `str` patterns). -/
def isPySpace (c : Char) : Bool :=
  c = ' ' || c = '\t' || c = '\n' || c = '\x0b' || c = '\x0c' || c = '\r' ||
  c = '\x1c' || c = '\x1d' || c = '\x1e' || c = '\x1f' || c = '\x85' ||
  c = '\xa0' || c = ' ' || c = ' ' || c = ' ' || c = ' ' ||
  c = ' ' || c = ' ' || c = ' ' || c = ' ' || c = ' ' ||
  c = ' ' || c = ' ' || c = ' ' || c = ' ' || c = ' ' ||
  c = ' ' || c = ' ' || c = '　'

/-- Python `s.strip(chars)` generalised: drop characters satisfying `q` from
both ends. -/
def pyStripWith (q : Char → Bool) (s : Str) : Str :=
  ((s.dropWhile q).reverse.dropWhile q).reverse

/-- Python `s.strip()` (no argument: strip whitespace from both ends). -/
def pyStrip (s : Str) : Str := pyStripWith isPySpace s

/-- Python `s.rstrip()` (strip trailing whitespace). -/
def pyRstrip (s : Str) : Str := (s.reverse.dropWhile isPySpace).reverse

/-- Helper for `pySplitOn`: prepend a character to the first piece. -/
def consHead (c : Char) : List Str → List Str
  | [] => [[c]]
  | e :: es => (c :: e) :: es

/-- Python `s.split(sep)` for a one-character separator: `"".split` gives
`[""]`, adjacent separators give empty pieces. -/
def pySplitOn (sep : Char) : Str → List Str
  | [] => [[]]
  | c :: cs => if c = sep then [] :: pySplitOn sep cs else consHead c (pySplitOn sep cs)

/-- Python `sep.join(pieces)` for a one-character separator. -/
def pyJoin (sep : Char) : List Str → Str
  | [] => []
  | [e] => e
  | e :: es => e ++ sep :: pyJoin sep es

/-- Merge the last piece of the first list with the first piece of the
second; this is how `pySplitOn` acts on an append of two strings. -/
def joinLast : List Str → List Str → List Str
  | [], b => b
  | [x], [] => [x]
  | [x], h :: t => (x ++ h) :: t
  | x :: xs, b => x :: joinLast xs b

/-- Line-break characters recognised by Python `str.splitlines`. -/
def isLineBreak (c : Char) : Bool :=
  c = '\n' || c = '\x0b' || c = '\x0c' || c = '\r' || c = '\x1c' || c = '\x1d' ||
  c = '\x1e' || c = '\x85' || c = ' ' || c = ' '

/-- Python `s.splitlines()`: no trailing empty line, `"\r\n"` is a single
break, `""` gives `[]`. -/
def pySplitlines : Str → List Str
  | [] => []
  | '\r' :: '\n' :: cs => [] :: pySplitlines cs
  | c :: cs =>
    if isLineBreak c then [] :: pySplitlines cs
    else consHead c (pySplitlines cs)

/-- Decimal rendering of a natural number, as Python `str` of a nonnegative
int. -/
def natToStr (n : Nat) : Str := Nat.toDigits 10 n

/-- Decimal rendering of an integer, as the Python f-string interpolation of
an int. -/
def intToStr : Int → Str
  | .ofNat n => natToStr n
  | .negSucc n => '-' :: natToStr (n + 1)

/-! ## Process Runner and Result Formatter (server.py lines 33 to 75) -/

/-- Result dictionary returned by `_run` (stdout, stderr, returncode, ok). -/
structure RunResult where
  stdout : Str
  stderr : Str
  returncode : Int
  ok : Bool
  deriving DecidableEq

/-- Outcome of the underlying `subprocess.run` call: normal completion with
captured output and exit status, `TimeoutExpired`, or `FileNotFoundError`
carrying the OS error text `str(e)`. -/
inductive SubprocOutcome where
  | completed (stdout stderr : Str) (returncode : Int)
  | timedOut
  | fileNotFound (err : Str)
  deriving DecidableEq

/-- Embedding of `_run` (server.py lines 33 to 63): the `try` body strips the
captured streams and derives `ok`; the two `except` arms build the sentinel
results.  Totality of this function is the "never raises" contract. -/
def _run (timeout : Nat) (outcome : SubprocOutcome) : RunResult :=
  match outcome with
  | .completed out err code =>
    { stdout := pyStrip out, stderr := pyStrip err, returncode := code, ok := code == 0 }
  | .timedOut =>
    { stdout := [], stderr := ("Command timed out after ".toList) ++ natToStr timeout ++ ("s".toList),
      returncode := -1, ok := false }
  | .fileNotFound err =>
    { stdout := [], stderr := err, returncode := -1, ok := false }

/-- Embedding of `_format` (server.py lines 66 to 75): collect the non-empty
parts in order, join with newlines, placeholder when no part applies. -/
def _format (r : RunResult) : Str :=
  let parts : List Str :=
    (if r.stdout.isEmpty then [] else [r.stdout]) ++
    (if r.stderr.isEmpty then [] else [("[stderr]\n".toList) ++ r.stderr]) ++
    (if r.ok then [] else [("[exit code: ".toList) ++ intToStr r.returncode ++ ("]".toList)])
  if parts.isEmpty then ("(no output)".toList) else pyJoin '\n' parts

/-! ## Append-only log reader (server.py lines 339 to 353) -/

/-- Python slice `l[s:]` for an arbitrary (possibly negative) integer start. -/
def pySliceFrom (s : Int) (l : List Str) : List Str :=
  if s < 0 then l.drop ((l.length + s).toNat) else l.drop s.toNat

/-- Embedding of `audit_log_read` (server.py lines 339 to 353).  The file is
`none` when `audit_path.exists()` is false, otherwise `some content`.  The
body splits the text into lines, keeps `lines[-n:]` when there are more than
`n` lines, and joins the tail (empty tail gives the "empty" message). -/
def audit_log_read (file : Option Str) (n : Int) : Str :=
  match file with
  | none => ("(audit log not yet created)".toList)
  | some content =>
    let lines := pySplitlines content
    let tail := if (lines.length : Int) > n then pySliceFrom (-n) lines else lines
    if tail.isEmpty then ("(audit log is empty)".toList) else pyJoin '\n' tail

/-! ## Filesystem KV store (server.py lines 356 to 391) -/

/-- Match of the glob pattern `*.md` against a file name (fnmatch translates
the pattern to `(?s:.*\.md)\Z`, i.e. the name ends with `.md`; pathlib glob
applies it to every directory entry including hidden ones). -/
def matchesStarMd (f : Str) : Bool := (".md".toList).isSuffixOf f

/-- Index of the last dot in a name, if any. -/
def lastDotPos : Str → Option Nat
  | [] => none
  | c :: cs =>
    match lastDotPos cs with
    | some i => some (i + 1)
    | none => if c = '.' then some 0 else none

/-- Embedding of `pathlib.PurePath.stem`: the name with its suffix removed,
where the suffix is the part from the last dot, unless that dot is the first
or the last character. -/
def stem (f : Str) : Str :=
  match lastDotPos f with
  | some i => if 0 < i ∧ i < f.length - 1 then f.take i else f
  | none => f

/-- Embedding of `memory_delete_prefix` (server.py lines 374 to 391).  The
memory directory is `none` when absent, otherwise `some files` with the
directory entry names.  The loop unlinks every `*.md` entry whose stem starts
with the prefix and counts them; the returned pair is the directory state
after the loop and the reported count. -/
def memory_delete_prefix (dir : Option (List Str)) (pfx : Str) : Option (List Str) × Nat :=
  match dir with
  | none => (none, 0)
  | some files =>
    (some (files.filter (fun f => !(matchesStarMd f && pfx.isPrefixOf (stem f)))),
     (files.filter (fun f => matchesStarMd f && pfx.isPrefixOf (stem f))).length)

/-! ## The config regex

Both `mcp_add_server` and `mcp_remove_server` locate the composite line with
`re.search(r'^mcp_servers\s*=\s*"(.*?)"', content, re.MULTILINE)`.
The embedding below is a direct matcher for this one pattern:

* `re.search` returns the leftmost match; with `re.MULTILINE` the anchor `^`
  restricts candidate positions to the string start and positions just after
  a newline, so the scan walks the string keeping a line-start flag;
* `\s*` is greedy, and since it is followed by a literal (`=` resp. `"`) that
  is itself not a `\s` character, the engine never needs to backtrack into
  it, so consuming with `dropWhile isPySpace` is exact;
* `(.*?)"` is non-greedy and `.` does not match a newline, so the group is
  the text up to the first `"` after the opening quote, and the candidate
  position fails if a newline or the end of the string comes first. -/

/-- Consume an expected literal prefix, returning the remainder. -/
def dropPfx? : Str → Str → Option Str
  | [], s => some s
  | _, [] => none
  | p :: ps, c :: cs => if p = c then dropPfx? ps cs else none

/-- Scan `(.*?)"`: the characters up to the first quote (failing on a newline
or the end of input), and the remainder after that quote. -/
def scanQuoted : Str → Option (Str × Str)
  | [] => none
  | c :: cs =>
    if c = '"' then some ([], cs)
    else if c = '\n' then none
    else
      match scanQuoted cs with
      | some (v, r) => some (c :: v, r)
      | none => none

/-- The literal `mcp_servers`. -/
def litMcp : Str := ("mcp_servers".toList)

/-- Attempt the part `\s*"(.*?)"` of the pattern: consume spaces, an opening
quote, then the non-greedy group.  Returns the consumed span, the group, and
the remainder. -/
def matchQuote (s3 : Str) : Option (Str × Str × Str) :=
  match s3.dropWhile isPySpace with
  | [] => none
  | c :: s5 =>
    if c = '"' then
      match scanQuoted s5 with
      | some (v, rest) => some (s3.takeWhile isPySpace ++ '"' :: (v ++ ['"']), v, rest)
      | none => none
    else none

/-- Attempt the part `\s*=\s*"(.*?)"` of the pattern. -/
def matchEq (s1 : Str) : Option (Str × Str × Str) :=
  match s1.dropWhile isPySpace with
  | [] => none
  | c :: s3 =>
    if c = '=' then
      match matchQuote s3 with
      | some (m2, v, rest) => some (s1.takeWhile isPySpace ++ '=' :: m2, v, rest)
      | none => none
    else none

/-- Attempt the whole pattern at one position: on success, the full matched
span, the quoted group, and the remainder after the match. -/
def matchAt (s : Str) : Option (Str × Str × Str) :=
  match dropPfx? litMcp s with
  | none => none
  | some s1 =>
    match matchEq s1 with
    | some (m1, v, rest) => some (litMcp ++ m1, v, rest)
    | none => none

/-- The attempt at one position: the pattern is only tried when the position
is a line start (the `^` anchor under `re.MULTILINE`). -/
def attemptAt (lineStart : Bool) (s : Str) : Option (Str × Str × Str) :=
  if lineStart then matchAt s else none

/-- Extend the before-the-match prefix of a deeper search result by one
character. -/
def stepResult (c : Char) : Option (Str × Str × Str × Str) → Option (Str × Str × Str × Str)
  | some (p, m, v, r) => some (c :: p, m, v, r)
  | none => none

/-- Take a fired attempt at the current position, or fall through to the
continuation of the scan. -/
def fireOr (a : Option (Str × Str × Str)) (k : Option (Str × Str × Str × Str)) :
    Option (Str × Str × Str × Str) :=
  match a with
  | some (m, v, rest) => some ([], m, v, rest)
  | none => k

/-- Leftmost search: try the pattern at every line-start position.  On
success returns the text before the match, the matched span, the quoted
group, and the text after the match. -/
def searchAux : Bool → Str → Option (Str × Str × Str × Str)
  | lineStart, [] => fireOr (attemptAt lineStart []) none
  | lineStart, c :: cs =>
    fireOr (attemptAt lineStart (c :: cs)) (stepResult c (searchAux (c = '\n') cs))

/-- Embedding of the `re.search` call on a whole document. -/
def searchMcp (s : Str) : Option (Str × Str × Str × Str) := searchAux true s

/-! ## Config store operations (server.py lines 450 to 512) -/

/-- The replacement text prefix `mcp_servers = "` used when the matched span
is spliced out (the f-string in lines 476 and 479). -/
def canonPfx : Str := ("mcp_servers = \"".toList)

/-- The filtered entry list shared by upsert and remove (lines 473 and 504):
`[e for e in existing.split("|") if e and not e.startswith(f"{name}=")]`. -/
def keepEntries (existing name : Str) : List Str :=
  (pySplitOn '|' existing).filter
    (fun e => !e.isEmpty && !((name ++ ['=']).isPrefixOf e))

/-- The new entry list built by upsert (lines 473 and 474): filter, then
append `f"{name}={command}"`. -/
def upsertEntries (existing name command : Str) : List Str :=
  keepEntries existing name ++ [name ++ '=' :: command]

/-- Name part of a pipe-delimited entry: the left-hand side of the first
`=`, as produced by `entry.partition("=")`. -/
def entryName (e : Str) : Str := e.takeWhile (fun c => c != '=')

/-- Embedding of the document rewrite in `mcp_add_server` (server.py lines
465 to 481), starting from the document text (the config file is assumed to
exist; the guard on a missing file is outside this function).  When the
regex matches, the matched span is replaced by the canonical
`mcp_servers = "<new value>"`; otherwise the stripped document gets a fresh
line appended. -/
def mcp_add_server (content name command : Str) : Str :=
  match searchMcp content with
  | some (pre, _, v, post) =>
    pre ++ canonPfx ++ pyJoin '|' (upsertEntries v name command) ++ '"' :: post
  | none =>
    pyRstrip content ++ '\n' :: canonPfx ++ name ++ '=' :: command ++ '"' :: '\n' :: []

/-- The three return paths of `mcp_remove_server` (server.py lines 496 to
512): no `mcp_servers` line, name not found (`removed == 0`, nothing
written), or a rewrite that is persisted together with the reported count. -/
inductive RemoveOutcome where
  | noConfig
  | notFound
  | removedSome (newContent : Str) (count : Nat)
  deriving DecidableEq

/-- Embedding of `mcp_remove_server` (server.py lines 486 to 512), starting
from the document text. -/
def mcp_remove_server (content name : Str) : RemoveOutcome :=
  match searchMcp content with
  | none => .noConfig
  | some (pre, _, v, post) =>
    let entries := keepEntries v name
    let removed := (pySplitOn '|' v).length - entries.length
    if removed = 0 then .notFound
    else .removedSome (pre ++ canonPfx ++ pyJoin '|' entries ++ '"' :: post) removed

/-! ## Environment construction in run_integration_test_discord
(server.py lines 262 to 280) -/

/-- Lookup in an association-list environment (first binding wins; a Python
dict has unique keys, which the operations below preserve). -/
def envLookup (e : List (Str × Str)) (k : Str) : Option Str :=
  match e with
  | [] => none
  | (k0, v0) :: t => if k0 = k then some v0 else envLookup t k

/-- Python dict assignment `env[k] = v`: replace the binding in place, or
append a new one. -/
def envSet (e : List (Str × Str)) (k v : Str) : List (Str × Str) :=
  match e with
  | [] => [(k, v)]
  | (k0, v0) :: t => if k0 = k then (k0, v) :: t else (k0, v0) :: envSet t k v

/-- Python `env.setdefault(k, v)`: insert only when the key is absent. -/
def envSetdefault (e : List (Str × Str)) (k v : Str) : List (Str × Str) :=
  match envLookup e k with
  | some _ => e
  | none => e ++ [(k, v)]

/-- Parsing of one `.env` line (server.py lines 271 to 277): strip the line,
skip blanks, comments and lines without `=`, split on the first `=`, strip
the key, and strip whitespace then double then single quotes from the
value. -/
def parseDotenvLine (line : Str) : Option (Str × Str) :=
  let l := pyStrip line
  if l.isEmpty then none
  else if l.head? = some '#' then none
  else if !l.contains '=' then none
  else
    let key := l.takeWhile (fun c => c != '=')
    let val := (l.dropWhile (fun c => c != '=')).tail
    some (pyStrip key,
          pyStripWith (fun c => c = '\'') (pyStripWith (fun c => c = '"') (pyStrip val)))

/-- One iteration of the `.env` loading loop: parse the line and
`setdefault` the binding (skipped lines leave the environment unchanged). -/
def dotenvStep (e : List (Str × Str)) (line : Str) : List (Str × Str) :=
  match parseDotenvLine line with
  | some (k, v) => envSetdefault e k v
  | none => e

/-- Embedding of the child-environment construction in
`run_integration_test_discord` (server.py lines 263 to 278): copy the
inherited environment, overwrite `BINARY`, then `setdefault` each parsed
`.env` binding.  The `.env` file is `none` when `dot_env.exists()` is
false. -/
def integrationChildEnv (binaryPath : Str) (inherited : List (Str × Str))
    (dotenv : Option Str) : List (Str × Str) :=
  let env := envSet inherited ("BINARY".toList) binaryPath
  match dotenv with
  | none => env
  | some content => (pySplitlines content).foldl dotenvStep env

/-- The value the `.env` file assigns to a key: the parsed value of the first
line defining it. -/
def dotenvValue (content : Str) (k : Str) : Option Str :=
  (pySplitlines content).findSome?
    (fun line =>
      match parseDotenvLine line with
      | some (k0, v) => if k0 = k then some v else none
      | none => none)

/-! ## Lemmas about split and join -/

theorem consHead_ne_nil (c : Char) (l : List Str) : consHead c l ≠ [] := by
  cases l <;> simp [consHead]

theorem consHead_cons (c : Char) (e : Str) (es : List Str) :
    consHead c (e :: es) = (c :: e) :: es := rfl

theorem pySplitOn_cons (sep c : Char) (cs : Str) :
    pySplitOn sep (c :: cs) =
      if c = sep then [] :: pySplitOn sep cs else consHead c (pySplitOn sep cs) := rfl

theorem pySplitOn_ne_nil (sep : Char) (s : Str) : pySplitOn sep s ≠ [] := by
  cases s with
  | nil => simp [pySplitOn]
  | cons c cs =>
    by_cases h : c = sep <;> simp [pySplitOn, h, consHead_ne_nil]

theorem pySplitOn_no_sep {sep : Char} {e : Str} (h : sep ∉ e) :
    pySplitOn sep e = [e] := by
  induction e with
  | nil => rfl
  | cons c cs ih =>
    have hc : ¬ c = sep := by
      intro hc; exact h (by simp [hc])
    have hcs : sep ∉ cs := fun hm => h (by simp [hm])
    simp [pySplitOn, hc, ih hcs, consHead]

theorem pySplitOn_append_sep {sep : Char} {e : Str} (r : Str) (h : sep ∉ e) :
    pySplitOn sep (e ++ sep :: r) = e :: pySplitOn sep r := by
  induction e with
  | nil => simp [pySplitOn]
  | cons c cs ih =>
    have hc : ¬ c = sep := by
      intro hc; exact h (by simp [hc])
    have hcs : sep ∉ cs := fun hm => h (by simp [hm])
    rw [List.cons_append, pySplitOn_cons, if_neg hc, ih hcs, consHead_cons]

theorem pySplitOn_pyJoin {sep : Char} {l : List Str} (hne : l ≠ [])
    (h : ∀ e ∈ l, sep ∉ e) : pySplitOn sep (pyJoin sep l) = l := by
  induction l with
  | nil => exact absurd rfl hne
  | cons e es ih =>
    cases es with
    | nil => exact pySplitOn_no_sep (h e (by simp))
    | cons e2 es2 =>
      have : pyJoin sep (e :: e2 :: es2) = e ++ sep :: pyJoin sep (e2 :: es2) := rfl
      rw [this, pySplitOn_append_sep _ (h e (by simp)),
        ih (by simp) (fun x hx => h x (by simp [hx]))]

theorem mem_pySplitOn_no_sep {sep : Char} {s e : Str}
    (h : e ∈ pySplitOn sep s) : sep ∉ e := by
  induction s generalizing e with
  | nil => simp [pySplitOn] at h; simp [h]
  | cons c cs ih =>
    by_cases hc : c = sep
    · simp [pySplitOn, hc] at h
      rcases h with h | h
      · simp [h]
      · exact ih h
    · simp only [pySplitOn, if_neg hc] at h
      rcases hs : pySplitOn sep cs with _ | ⟨p, ps⟩
      · exact absurd hs (pySplitOn_ne_nil sep cs)
      · rw [hs] at h; simp [consHead] at h
        rcases h with h | h
        · subst h
          intro hm
          rcases List.mem_cons.mp hm with h1 | h1
          · exact hc h1.symm
          · exact ih (by rw [hs]; simp) h1
        · exact ih (by rw [hs]; simp [h])

theorem mem_pySplitOn_chars {sep : Char} {s e : Str} {c : Char}
    (he : e ∈ pySplitOn sep s) (hc : c ∈ e) : c ∈ s := by
  induction s generalizing e with
  | nil => simp [pySplitOn] at he; subst he; simp at hc
  | cons a as ih =>
    by_cases ha : a = sep
    · simp [pySplitOn, ha] at he
      rcases he with he | he
      · subst he; simp at hc
      · simp [ih he hc]
    · simp only [pySplitOn, if_neg ha] at he
      rcases hs : pySplitOn sep as with _ | ⟨p, ps⟩
      · exact absurd hs (pySplitOn_ne_nil sep as)
      · rw [hs] at he; simp [consHead] at he
        rcases he with he | he
        · subst he
          rcases List.mem_cons.mp hc with h1 | h1
          · simp [h1]
          · simp [ih (by rw [hs]; simp) h1]
        · simp [ih (by rw [hs]; simp [he]) hc]

theorem mem_pyJoin_chars {sep : Char} {l : List Str} {c : Char}
    (h : c ∈ pyJoin sep l) : c = sep ∨ ∃ e ∈ l, c ∈ e := by
  induction l with
  | nil => simp [pyJoin] at h
  | cons e es ih =>
    cases es with
    | nil => exact Or.inr ⟨e, by simp, h⟩
    | cons e2 es2 =>
      have : pyJoin sep (e :: e2 :: es2) = e ++ sep :: pyJoin sep (e2 :: es2) := rfl
      rw [this] at h
      rcases List.mem_append.mp h with h1 | h1
      · exact Or.inr ⟨e, by simp, h1⟩
      · rcases List.mem_cons.mp h1 with h2 | h2
        · exact Or.inl h2
        · rcases ih h2 with h3 | ⟨x, hx, hcx⟩
          · exact Or.inl h3
          · exact Or.inr ⟨x, by simp [hx], hcx⟩

theorem joinLast_cons_cons (x y : Str) (xs : List Str) (b : List Str) :
    joinLast (x :: y :: xs) b = x :: joinLast (y :: xs) b := by
  cases b <;> rfl

theorem pySplitOn_append (sep : Char) (a b : Str) :
    pySplitOn sep (a ++ b) = joinLast (pySplitOn sep a) (pySplitOn sep b) := by
  induction a with
  | nil =>
    show pySplitOn sep b = joinLast [[]] (pySplitOn sep b)
    rcases hb : pySplitOn sep b with _ | ⟨h, t⟩
    · exact absurd hb (pySplitOn_ne_nil sep b)
    · rfl
  | cons c cs ih =>
    rcases hcs : pySplitOn sep cs with _ | ⟨h, t⟩
    · exact absurd hcs (pySplitOn_ne_nil sep cs)
    by_cases hc : c = sep
    · rw [List.cons_append, pySplitOn_cons, if_pos hc, ih, pySplitOn_cons, if_pos hc,
        hcs, joinLast_cons_cons]
    · rw [List.cons_append, pySplitOn_cons, if_neg hc, ih, pySplitOn_cons, if_neg hc, hcs,
        consHead_cons]
      rcases hb : pySplitOn sep b with _ | ⟨hb1, tb⟩
      · exact absurd hb (pySplitOn_ne_nil sep b)
      · cases t with
        | nil => simp [joinLast, consHead]
        | cons t1 ts => rw [joinLast_cons_cons, consHead_cons, joinLast_cons_cons]

theorem joinLast_snoc (xs : List Str) (x h : Str) (t : List Str) :
    joinLast (xs ++ [x]) (h :: t) = xs ++ (x ++ h) :: t := by
  induction xs with
  | nil => rfl
  | cons y ys ih =>
    rcases ys with _ | ⟨z, zs⟩
    · rfl
    · simp only [List.cons_append, joinLast_cons_cons]
      rw [← List.cons_append, ih]
      simp

theorem pySplitOn_cons_ne_single_nil {sep c : Char} {cs : Str} :
    pySplitOn sep (c :: cs) ≠ [[]] := by
  rw [pySplitOn_cons]
  by_cases hc : c = sep
  · rw [if_pos hc]
    intro h
    simp at h
    exact pySplitOn_ne_nil sep cs h
  · rw [if_neg hc]
    rcases hs : pySplitOn sep cs with _ | ⟨e, es⟩
    · exact absurd hs (pySplitOn_ne_nil sep cs)
    · rw [consHead_cons]
      intro h
      simp at h

theorem pySplitOn_getLast_nil {sep : Char} {s : Str}
    (h : s.getLast? = some sep) : ∃ ps, pySplitOn sep s = ps ++ [[]] := by
  induction s with
  | nil => simp at h
  | cons c cs ih =>
    cases cs with
    | nil =>
      simp at h
      subst h
      exact ⟨[[]], by simp [pySplitOn, consHead]⟩
    | cons d ds =>
      have hlast : (d :: ds).getLast? = some sep := by
        rw [List.getLast?_cons_cons] at h; exact h
      rcases ih hlast with ⟨ps, hps⟩
      by_cases hc : c = sep
      · refine ⟨[] :: ps, ?_⟩
        rw [pySplitOn_cons, if_pos hc, hps]
        rfl
      · have hne : ps ≠ [] := by
          intro hnil
          rw [hnil] at hps
          exact pySplitOn_cons_ne_single_nil hps
        rcases ps with _ | ⟨p, pps⟩
        · exact absurd rfl hne
        · refine ⟨(c :: p) :: pps, ?_⟩
          rw [pySplitOn_cons, if_neg hc, hps]
          simp [List.cons_append, consHead_cons]

/-! ## Lemmas about the regex matcher -/

theorem dropPfx?_self_append (p X : Str) : dropPfx? p (p ++ X) = some X := by
  induction p with
  | nil => simp [dropPfx?]
  | cons c cs ih => simp [dropPfx?, ih]

theorem dropPfx?_eq_some {p s r : Str} (h : dropPfx? p s = some r) : s = p ++ r := by
  induction p generalizing s with
  | nil => simp [dropPfx?] at h; simp [h]
  | cons q ps ih =>
    cases s with
    | nil => simp [dropPfx?] at h
    | cons a as =>
      simp only [dropPfx?] at h
      by_cases hq : q = a
      · rw [if_pos hq] at h
        rw [List.cons_append, ← ih h, hq]
      · rw [if_neg hq] at h; exact absurd h (by simp)

theorem dropPfx?_append_of_le {p u : Str} (X : Str) (h : p.length ≤ u.length) :
    dropPfx? p (u ++ X) = (dropPfx? p u).map (· ++ X) := by
  induction p generalizing u with
  | nil => simp [dropPfx?]
  | cons q ps ih =>
    cases u with
    | nil => simp at h
    | cons a as =>
      simp only [List.cons_append, dropPfx?]
      by_cases hq : q = a
      · rw [if_pos hq, if_pos hq]
        exact ih (by simpa using h)
      · rw [if_neg hq, if_neg hq]; rfl

theorem dropPfx?_short_none {p u : Str} (X : Str) {c : Char}
    (hlt : u.length < p.length) (hlast : u.getLast? = some c) (hc : c ∉ p) :
    dropPfx? p (u ++ X) = none := by
  induction u generalizing p with
  | nil => simp at hlast
  | cons a as ih =>
    cases p with
    | nil => simp at hlt
    | cons q ps =>
      simp only [List.cons_append, dropPfx?]
      by_cases hq : q = a
      · rw [if_pos hq]
        cases as with
        | nil =>
          simp at hlast
          exact absurd (by simp [hq, hlast] : c ∈ q :: ps) hc
        | cons b bs =>
          exact ih (by simpa using hlt) (by simpa using hlast)
            (fun hm => hc (by simp [hm]))
      · rw [if_neg hq]

theorem scanQuoted_eq {s v r : Str} (h : scanQuoted s = some (v, r)) :
    s = v ++ '"' :: r ∧ '"' ∉ v ∧ '\n' ∉ v := by
  induction s generalizing v r with
  | nil => simp [scanQuoted] at h
  | cons c cs ih =>
    simp only [scanQuoted] at h
    by_cases hq : c = '"'
    · rw [if_pos hq] at h
      simp at h
      obtain ⟨hv, hr⟩ := h
      subst hv; subst hr; subst hq
      exact ⟨rfl, by simp, by simp⟩
    · rw [if_neg hq] at h
      by_cases hn : c = '\n'
      · rw [if_pos hn] at h; simp at h
      · rw [if_neg hn] at h
        rcases hsc : scanQuoted cs with _ | ⟨v0, r0⟩ <;> rw [hsc] at h
        · simp at h
        · simp at h
          obtain ⟨hv, hr⟩ := h
          obtain ⟨he, hq0, hn0⟩ := ih hsc
          subst hv; subst hr
          refine ⟨by rw [List.cons_append, he], ?_, ?_⟩
          · intro hm
            rcases List.mem_cons.mp hm with h1 | h1
            · exact hq h1.symm
            · exact hq0 h1
          · intro hm
            rcases List.mem_cons.mp hm with h1 | h1
            · exact hn h1.symm
            · exact hn0 h1

theorem scanQuoted_clean {v : Str} (r : Str) (hq : '"' ∉ v) (hn : '\n' ∉ v) :
    scanQuoted (v ++ '"' :: r) = some (v, r) := by
  induction v with
  | nil => simp [scanQuoted]
  | cons c cs ih =>
    have hcq : ¬ c = '"' := fun hh => hq (by simp [hh])
    have hcn : ¬ c = '\n' := fun hh => hn (by simp [hh])
    rw [List.cons_append]
    simp only [scanQuoted, if_neg hcq, if_neg hcn,
      ih (fun hm => hq (by simp [hm])) (fun hm => hn (by simp [hm]))]

theorem scanQuoted_decided {u : Str} (h : u.getLast? = some '\n') :
    (∀ X : Str, scanQuoted (u ++ X) = none) ∨
    (∃ v r, ∀ X : Str, scanQuoted (u ++ X) = some (v, r ++ X)) := by
  induction u with
  | nil => simp at h
  | cons c cs ih =>
    by_cases hq : c = '"'
    · right
      exact ⟨[], cs, fun X => by simp [scanQuoted, hq]⟩
    · by_cases hn : c = '\n'
      · left
        intro X
        simp [scanQuoted, hq, hn]
      · have hcs : cs ≠ [] := by
          intro hnil
          subst hnil
          simp at h
          exact hn h
        have hlast : cs.getLast? = some '\n' := by
          rcases cs with _ | ⟨d, ds⟩
          · exact absurd rfl hcs
          · rw [List.getLast?_cons_cons] at h; exact h
        rcases ih hlast with hL | ⟨v, r, hR⟩
        · left
          intro X
          simp [scanQuoted, hq, hn, hL X]
        · right
          exact ⟨c :: v, r, fun X => by simp [scanQuoted, hq, hn, hR X]⟩

theorem matchQuote_eq {s3 m2 v r : Str} (h : matchQuote s3 = some (m2, v, r)) :
    s3 = m2 ++ r ∧ '"' ∉ v ∧ '\n' ∉ v := by
  unfold matchQuote at h
  split at h
  · simp at h
  next c s5 hdw =>
    split at h
    next hc =>
      rcases hsc : scanQuoted s5 with _ | ⟨v0, r0⟩ <;> rw [hsc] at h
      · simp at h
      · simp at h
        obtain ⟨hm, hv, hr⟩ := h
        obtain ⟨he, hq, hn⟩ := scanQuoted_eq hsc
        subst hm; subst hv; subst hr; subst hc
        refine ⟨?_, hq, hn⟩
        conv_lhs => rw [← List.takeWhile_append_dropWhile isPySpace s3, hdw, he]
        simp
    next hc => simp at h

theorem matchEq_eq {s1 m1 v r : Str} (h : matchEq s1 = some (m1, v, r)) :
    s1 = m1 ++ r ∧ '"' ∉ v ∧ '\n' ∉ v := by
  unfold matchEq at h
  split at h
  · simp at h
  next c s3 hdw =>
    split at h
    next hc =>
      rcases hmq : matchQuote s3 with _ | ⟨⟨m2, v0, r0⟩⟩ <;> rw [hmq] at h
      · simp at h
      · simp at h
        obtain ⟨hm, hv, hr⟩ := h
        obtain ⟨he, hq, hn⟩ := matchQuote_eq hmq
        subst hm; subst hv; subst hr; subst hc
        refine ⟨?_, hq, hn⟩
        conv_lhs => rw [← List.takeWhile_append_dropWhile isPySpace s1, hdw, he]
        simp
    next hc => simp at h

theorem matchAt_eq {s m v r : Str} (h : matchAt s = some (m, v, r)) :
    s = m ++ r ∧ m.head? = some 'm' ∧ '"' ∉ v ∧ '\n' ∉ v := by
  unfold matchAt at h
  split at h
  · simp at h
  next s1 hdp =>
    rcases hme : matchEq s1 with _ | ⟨⟨m1, v0, r0⟩⟩ <;> rw [hme] at h
    · simp at h
    · simp at h
      obtain ⟨hm, hv, hr⟩ := h
      obtain ⟨he, hq, hn⟩ := matchEq_eq hme
      subst hm; subst hv; subst hr
      refine ⟨?_, ?_, hq, hn⟩
      · rw [dropPfx?_eq_some hdp, he]; simp
      · rfl

theorem matchQuote_canon {W : Str} (post : Str) (hq : '"' ∉ W) (hn : '\n' ∉ W) :
    matchQuote (' ' :: '"' :: (W ++ '"' :: post)) =
      some ([' '] ++ '"' :: (W ++ ['"']), W, post) := by
  have hdw : (' ' :: '"' :: (W ++ '"' :: post)).dropWhile isPySpace =
      '"' :: (W ++ '"' :: post) := by
    simp [List.dropWhile_cons, (by decide : isPySpace ' ' = true),
      (by decide : isPySpace '"' = false)]
  have htw : (' ' :: '"' :: (W ++ '"' :: post)).takeWhile isPySpace = [' '] := by
    simp [List.takeWhile_cons, (by decide : isPySpace ' ' = true),
      (by decide : isPySpace '"' = false)]
  unfold matchQuote
  rw [hdw]
  simp only [htw, scanQuoted_clean post hq hn]
  simp

theorem matchEq_canon {W : Str} (post : Str) (hq : '"' ∉ W) (hn : '\n' ∉ W) :
    matchEq (' ' :: '=' :: ' ' :: '"' :: (W ++ '"' :: post)) =
      some ([' '] ++ '=' :: ([' '] ++ '"' :: (W ++ ['"'])), W, post) := by
  have hdw : (' ' :: '=' :: ' ' :: '"' :: (W ++ '"' :: post)).dropWhile isPySpace =
      '=' :: ' ' :: '"' :: (W ++ '"' :: post) := by
    simp [List.dropWhile_cons, (by decide : isPySpace ' ' = true),
      (by decide : isPySpace '=' = false)]
  have htw : (' ' :: '=' :: ' ' :: '"' :: (W ++ '"' :: post)).takeWhile isPySpace = [' '] := by
    simp [List.takeWhile_cons, (by decide : isPySpace ' ' = true),
      (by decide : isPySpace '=' = false)]
  unfold matchEq
  rw [hdw]
  simp only [htw, matchQuote_canon post hq hn]
  simp

theorem canonPfx_eq : canonPfx = litMcp ++ (' ' :: '=' :: ' ' :: '"' :: []) := by decide

theorem matchAt_canon {W : Str} (post : Str) (hq : '"' ∉ W) (hn : '\n' ∉ W) :
    matchAt (canonPfx ++ (W ++ '"' :: post)) =
      some (canonPfx ++ (W ++ ['"']), W, post) := by
  have hshape : canonPfx ++ (W ++ '"' :: post) =
      litMcp ++ (' ' :: '=' :: ' ' :: '"' :: (W ++ '"' :: post)) := by
    rw [canonPfx_eq]; simp
  unfold matchAt
  rw [hshape, dropPfx?_self_append]
  simp only [matchEq_canon post hq hn, canonPfx_eq]
  simp

/-! ## Transport of match failure

Replacing the matched span of the leftmost match with the canonical
`mcp_servers = "<value>"` text cannot create a new, earlier match: at every
earlier line start the attempt fails for a reason visible before the
replaced region begins.  The key facts are that the text before the match
ends with a newline (the anchor), and that both the old and the new
continuation start with the letter m. -/

theorem dropWhile_getLast {u : Str} (hne : u.dropWhile isPySpace ≠ []) :
    (u.dropWhile isPySpace).getLast? = u.getLast? := by
  conv_rhs => rw [← List.takeWhile_append_dropWhile isPySpace u]
  rw [List.getLast?_append_of_ne_nil _ hne]

theorem matchQuote_transport {u X₁ X₂ : Str} (hu : u.getLast? = some '\n')
    (h1 : X₁.head? = some 'm') (h2 : X₂.head? = some 'm')
    (hn : matchQuote (u ++ X₁) = none) : matchQuote (u ++ X₂) = none := by
  rcases X₁ with _ | ⟨c1, Y₁⟩
  · simp at h1
  rcases X₂ with _ | ⟨c2, Y₂⟩
  · simp at h2
  simp at h1 h2
  subst h1; subst h2
  by_cases hemp : (u.dropWhile isPySpace).isEmpty
  · have e2 : (u ++ 'm' :: Y₂).dropWhile isPySpace = 'm' :: Y₂ := by
      rw [List.dropWhile_append, if_pos hemp]
      simp [List.dropWhile_cons, (by decide : isPySpace 'm' = false)]
    unfold matchQuote
    rw [e2]
    simp
  · have e : ∀ Y : Str, (u ++ 'm' :: Y).dropWhile isPySpace =
        u.dropWhile isPySpace ++ 'm' :: Y := by
      intro Y
      rw [List.dropWhile_append, if_neg hemp]
    have hne : u.dropWhile isPySpace ≠ [] := by
      simpa [List.isEmpty_iff] using hemp
    have hlastd : (u.dropWhile isPySpace).getLast? = some '\n' := by
      rw [dropWhile_getLast hne, hu]
    rcases hd : u.dropWhile isPySpace with _ | ⟨a, d1⟩
    · exact absurd hd hne
    rw [hd] at hlastd e
    by_cases ha : a = '"'
    · subst ha
      have hd1 : d1 ≠ [] := by
        intro h0
        subst h0
        simp at hlastd
      have hlast1 : d1.getLast? = some '\n' := by
        rcases d1 with _ | ⟨b, bs⟩
        · exact absurd rfl hd1
        · rw [List.getLast?_cons_cons] at hlastd; exact hlastd
      rcases scanQuoted_decided hlast1 with hL | ⟨v, r, hR⟩
      · unfold matchQuote
        rw [e Y₂, List.cons_append]
        simp [hL ('m' :: Y₂)]
      · exfalso
        unfold matchQuote at hn
        rw [e Y₁, List.cons_append] at hn
        simp [hR ('m' :: Y₁)] at hn
    · unfold matchQuote
      rw [e Y₂, List.cons_append]
      simp [ha]

theorem matchEq_transport {u X₁ X₂ : Str} (hu : u.getLast? = some '\n')
    (h1 : X₁.head? = some 'm') (h2 : X₂.head? = some 'm')
    (hn : matchEq (u ++ X₁) = none) : matchEq (u ++ X₂) = none := by
  rcases hX1 : X₁ with _ | ⟨c1, Y₁⟩
  · rw [hX1] at h1; simp at h1
  rcases hX2 : X₂ with _ | ⟨c2, Y₂⟩
  · rw [hX2] at h2; simp at h2
  rw [hX1] at h1 hn; rw [hX2] at h2
  simp at h1 h2
  subst h1; subst h2
  by_cases hemp : (u.dropWhile isPySpace).isEmpty
  · have e2 : (u ++ 'm' :: Y₂).dropWhile isPySpace = 'm' :: Y₂ := by
      rw [List.dropWhile_append, if_pos hemp]
      simp [List.dropWhile_cons, (by decide : isPySpace 'm' = false)]
    unfold matchEq
    rw [e2]
    simp
  · have e : ∀ Y : Str, (u ++ 'm' :: Y).dropWhile isPySpace =
        u.dropWhile isPySpace ++ 'm' :: Y := by
      intro Y
      rw [List.dropWhile_append, if_neg hemp]
    have hne : u.dropWhile isPySpace ≠ [] := by
      simpa [List.isEmpty_iff] using hemp
    have hlastd : (u.dropWhile isPySpace).getLast? = some '\n' := by
      rw [dropWhile_getLast hne, hu]
    rcases hd : u.dropWhile isPySpace with _ | ⟨a, d1⟩
    · exact absurd hd hne
    rw [hd] at hlastd e
    by_cases ha : a = '='
    · subst ha
      have hd1 : d1 ≠ [] := by
        intro h0
        subst h0
        simp at hlastd
      have hlast1 : d1.getLast? = some '\n' := by
        rcases d1 with _ | ⟨b, bs⟩
        · exact absurd rfl hd1
        · rw [List.getLast?_cons_cons] at hlastd; exact hlastd
      have hq1 : matchQuote (d1 ++ 'm' :: Y₁) = none := by
        rcases hq : matchQuote (d1 ++ 'm' :: Y₁) with _ | ⟨⟨m2, v, rest⟩⟩
        · rfl
        · exfalso
          unfold matchEq at hn
          rw [e Y₁, List.cons_append] at hn
          simp [hq] at hn
      have hq2 : matchQuote (d1 ++ 'm' :: Y₂) = none := by
        refine matchQuote_transport hlast1 ?_ ?_ hq1 <;> simp
      unfold matchEq
      rw [e Y₂, List.cons_append]
      simp [hq2]
    · unfold matchEq
      rw [e Y₂, List.cons_append]
      simp [ha]

theorem matchAt_transport {u X₁ X₂ : Str} (hu : u.getLast? = some '\n')
    (h1 : X₁.head? = some 'm') (h2 : X₂.head? = some 'm')
    (hn : matchAt (u ++ X₁) = none) : matchAt (u ++ X₂) = none := by
  by_cases hlen : litMcp.length ≤ u.length
  · rcases hdp : dropPfx? litMcp u with _ | u₁
    · unfold matchAt
      rw [dropPfx?_append_of_le X₂ hlen, hdp]
      rfl
    · have hu_eq : u = litMcp ++ u₁ := dropPfx?_eq_some hdp
      have hu₁ : u₁ ≠ [] := by
        intro h0
        subst h0
        rw [List.append_nil] at hu_eq
        subst hu_eq
        exact absurd hu (by decide)
      have hlast₁ : u₁.getLast? = some '\n' := by
        rw [hu_eq, List.getLast?_append_of_ne_nil _ hu₁] at hu
        exact hu
      have hme1 : matchEq (u₁ ++ X₁) = none := by
        rcases hq : matchEq (u₁ ++ X₁) with _ | ⟨⟨m1, v, rest⟩⟩
        · rfl
        · exfalso
          unfold matchAt at hn
          rw [dropPfx?_append_of_le X₁ hlen, hdp] at hn
          simp [hq] at hn
      have hme2 := matchEq_transport hlast₁ h1 h2 hme1
      unfold matchAt
      rw [dropPfx?_append_of_le X₂ hlen, hdp]
      simp [hme2]
  · have hlt : u.length < litMcp.length := Nat.lt_of_not_le hlen
    unfold matchAt
    rw [dropPfx?_short_none X₂ hlt hu (by decide)]

theorem attemptAt_true (s : Str) : attemptAt true s = matchAt s := rfl

theorem attemptAt_nil (flag : Bool) : attemptAt flag [] = none := by
  cases flag <;> rfl

theorem stepResult_eq_some {c : Char} {o : Option (Str × Str × Str × Str)} {p m v r : Str}
    (h : stepResult c o = some (p, m, v, r)) :
    ∃ p', p = c :: p' ∧ o = some (p', m, v, r) := by
  rcases o with _ | ⟨⟨p0, m0, v0, r0⟩⟩
  · simp [stepResult] at h
  · simp [stepResult] at h
    exact ⟨p0, h.1.symm, by simp [h.2.1, h.2.2.1, h.2.2.2]⟩

theorem fireOr_none (k : Option (Str × Str × Str × Str)) : fireOr none k = k := rfl

theorem fireOr_some (m v rest : Str) (k : Option (Str × Str × Str × Str)) :
    fireOr (some (m, v, rest)) k = some ([], m, v, rest) := rfl

theorem searchAux_nil (flag : Bool) : searchAux flag [] = none := by
  cases flag <;> rfl

theorem searchAux_cons (flag : Bool) (c : Char) (cs : Str) :
    searchAux flag (c :: cs) =
      fireOr (attemptAt flag (c :: cs)) (stepResult c (searchAux (c = '\n') cs)) := rfl

theorem searchAux_of_matchAt {s m v rest : Str} (hma : matchAt s = some (m, v, rest)) :
    searchAux true s = some ([], m, v, rest) := by
  cases s with
  | nil =>
    exact Option.noConfusion
      (show (none : Option (Str × Str × Str)) = some (m, v, rest) from hma)
  | cons c cs =>
    rw [searchAux_cons, attemptAt_true, hma, fireOr_some]

theorem searchAux_some {flag : Bool} {s p m v r : Str}
    (h : searchAux flag s = some (p, m, v, r)) :
    s = p ++ m ++ r ∧ matchAt (m ++ r) = some (m, v, r) ∧
      (p = [] → flag = true) ∧ (p ≠ [] → p.getLast? = some '\n') := by
  induction s generalizing flag p m v r with
  | nil =>
    rw [searchAux_nil] at h
    simp at h
  | cons c cs ih =>
    rw [searchAux_cons] at h
    rcases hma : attemptAt flag (c :: cs) with _ | ⟨⟨m0, v0, r0⟩⟩ <;> rw [hma] at h
    · rw [fireOr_none] at h
      obtain ⟨p', hp, hrec⟩ := stepResult_eq_some h
      subst hp
      obtain ⟨hcs, hmt, hfl, hlast⟩ := ih hrec
      refine ⟨by simp [hcs], hmt, ?_, ?_⟩
      · intro h0; simp at h0
      · intro _
        rcases hp0 : p' with _ | ⟨x, xs⟩
        · have hc : c = '\n' := by
            have := hfl hp0
            exact of_decide_eq_true this
          simp [hc]
        · rw [List.getLast?_cons_cons]
          rw [hp0] at hlast
          exact hlast (by simp)
    · rw [fireOr_some] at h
      simp at h
      obtain ⟨hp, hm, hv, hr⟩ := h
      subst hp; subst hm; subst hv; subst hr
      cases flag with
      | false => simp [attemptAt] at hma
      | true =>
        rw [attemptAt_true] at hma
        obtain ⟨he, _, _, _⟩ := matchAt_eq hma
        refine ⟨by simp [he], ?_, fun _ => rfl, fun h0 => absurd rfl h0⟩
        rw [← he]
        exact hma

theorem searchAux_replace {W : Str} (hWq : '"' ∉ W) (hWn : '\n' ∉ W) :
    ∀ (p : Str) (flag : Bool) (m v r : Str),
      searchAux flag (p ++ (m ++ r)) = some (p, m, v, r) →
      searchAux flag (p ++ (canonPfx ++ (W ++ '"' :: r))) =
        some (p, canonPfx ++ (W ++ ['"']), W, r) := by
  intro p
  induction p with
  | nil =>
    intro flag m v r h
    obtain ⟨_, hmt, hfl, _⟩ := searchAux_some h
    have hflag : flag = true := hfl rfl
    subst hflag
    rw [List.nil_append]
    exact searchAux_of_matchAt (matchAt_canon r hWq hWn)
  | cons c p' ih =>
    intro flag m v r h
    obtain ⟨hs, hmt, hfl, hlast⟩ := searchAux_some h
    have hmhead : m.head? = some 'm' := (matchAt_eq hmt).2.1
    have hlastcp : (c :: p').getLast? = some '\n' := hlast (by simp)
    rw [List.cons_append, searchAux_cons] at h
    rcases hma : attemptAt flag (c :: (p' ++ (m ++ r))) with _ | ⟨⟨m0, v0, r0⟩⟩ <;>
      rw [hma] at h
    · rw [fireOr_none] at h
      obtain ⟨p2, hp, hrec⟩ := stepResult_eq_some h
      have hrec' : searchAux (c = '\n') (p' ++ (m ++ r)) = some (p', m, v, r) := by
        have h2 : p' = p2 := (List.cons.inj hp).2
        rw [← h2] at hrec
        exact hrec
      have hnew := ih (c = '\n') m v r hrec'
      have hma2 : attemptAt flag (c :: (p' ++ (canonPfx ++ (W ++ '"' :: r)))) = none := by
        cases flag with
        | false => rfl
        | true =>
          rw [attemptAt_true] at hma ⊢
          rw [← List.cons_append] at hma ⊢
          have hm1 : (m ++ r).head? = some 'm' := by
            rcases m with _ | ⟨x, xs⟩
            · simp at hmhead
            · simp at hmhead; simp [hmhead]
          have hm2 : (canonPfx ++ (W ++ '"' :: r)).head? = some 'm' := rfl
          exact matchAt_transport hlastcp hm1 hm2 hma
      rw [List.cons_append, searchAux_cons, hma2, fireOr_none, hnew]
      rfl
    · rw [fireOr_some] at h
      simp at h

theorem searchMcp_some {s p m v r : Str} (h : searchMcp s = some (p, m, v, r)) :
    s = p ++ m ++ r ∧ matchAt (m ++ r) = some (m, v, r) ∧
      (p ≠ [] → p.getLast? = some '\n') := by
  obtain ⟨h1, h2, _, h4⟩ := searchAux_some h
  exact ⟨h1, h2, h4⟩

theorem searchMcp_v_clean {s p m v r : Str} (h : searchMcp s = some (p, m, v, r)) :
    '"' ∉ v ∧ '\n' ∉ v := by
  obtain ⟨_, hmt, _⟩ := searchMcp_some h
  obtain ⟨_, _, hq, hn⟩ := matchAt_eq hmt
  exact ⟨hq, hn⟩

/-- Replacing the leftmost matched span by the canonical line with a clean
new value gives a document on which the search finds exactly the canonical
span, at the same position. -/
theorem searchMcp_replace {s p m v r W : Str} (h : searchMcp s = some (p, m, v, r))
    (hWq : '"' ∉ W) (hWn : '\n' ∉ W) :
    searchMcp (p ++ (canonPfx ++ (W ++ '"' :: r))) =
      some (p, canonPfx ++ (W ++ ['"']), W, r) := by
  obtain ⟨hs, _, _⟩ := searchMcp_some h
  apply searchAux_replace hWq hWn
  rw [← List.append_assoc, ← hs]
  exact h

/-! ## Lemmas about composite entries -/

theorem entryName_pair {name : Str} (cmd : Str) (h : '=' ∉ name) :
    entryName (name ++ '=' :: cmd) = name := by
  unfold entryName
  induction name with
  | nil => simp [List.takeWhile_cons]
  | cons c cs ih =>
    have hc : (c != '=') = true := by
      simp only [bne_iff_ne, ne_eq]
      intro hh; exact h (by simp [hh])
    rw [List.cons_append, List.takeWhile_cons, hc]
    simp only [if_true]
    rw [ih (fun hm => h (by simp [hm]))]

theorem startswith_of_entryName {name e : Str} (hn : '=' ∉ name) (he : '=' ∈ e)
    (hname : entryName e = name) : (name ++ ['=']).isPrefixOf e = true := by
  unfold entryName at hname
  have hdw : e.dropWhile (fun c => c != '=') ≠ [] := by
    rw [ne_eq, List.dropWhile_eq_nil_iff]
    push_neg
    exact ⟨'=', he, by simp⟩
  rcases hd : e.dropWhile (fun c => c != '=') with _ | ⟨c, rest⟩
  · exact absurd hd hdw
  · have hc : c = '=' := by
      have := List.head?_dropWhile_not (fun c => c != '=') e
      rw [hd] at this
      simpa using this
    have he2 : e = name ++ '=' :: rest := by
      conv_lhs => rw [← List.takeWhile_append_dropWhile (fun c => c != '=') e, hd]
      rw [hc, hname]
    rw [he2, List.isPrefixOf_iff_prefix]
    exact ⟨rest, by simp⟩

theorem entryName_of_startswith {name e : Str} (hn : '=' ∉ name)
    (hpfx : (name ++ ['=']).isPrefixOf e = true) : entryName e = name := by
  rw [ List.isPrefixOf_iff_prefix] at hpfx
  obtain ⟨t, ht⟩ := hpfx
  rw [← ht]
  have : name ++ ['='] ++ t = name ++ '=' :: t := by simp
  rw [this, entryName_pair t hn]

theorem mem_keepEntries_name {v name : Str} (hn : '=' ∉ name)
    (hwf : ∀ e ∈ pySplitOn '|' v, e ≠ [] → '=' ∈ e) :
    ∀ e ∈ keepEntries v name, entryName e ≠ name := by
  intro e he
  unfold keepEntries at he
  rw [List.mem_filter] at he
  obtain ⟨hmem, hpred⟩ := he
  simp only [Bool.and_eq_true, Bool.not_eq_true'] at hpred
  obtain ⟨hne, hpfx⟩ := hpred
  intro hname
  have hnonempty : e ≠ [] := by
    intro h0; rw [h0] at hne; simp at hne
  have := startswith_of_entryName hn (hwf e hmem hnonempty) hname
  rw [this] at hpfx
  exact Bool.noConfusion hpfx

theorem keepEntries_eq_of_no_match {v name : Str} (hn : '=' ∉ name)
    (hne : ∀ e ∈ pySplitOn '|' v, e ≠ [])
    (hnm : ∀ e ∈ pySplitOn '|' v, entryName e ≠ name) :
    keepEntries v name = pySplitOn '|' v := by
  unfold keepEntries
  rw [List.filter_eq_self]
  intro e he
  simp only [Bool.and_eq_true, Bool.not_eq_true']
  constructor
  · simp [List.isEmpty_iff, hne e he]
  · rcases hpfx : (name ++ ['=']).isPrefixOf e with _ | _
    · rfl
    · exact absurd (entryName_of_startswith hn hpfx) (hnm e he)

theorem upsertEntries_ne_nil (v name command : Str) :
    upsertEntries v name command ≠ [] := by
  unfold upsertEntries
  simp

theorem upsertEntries_no_pipe {name command : Str} (v : Str) (hn_pipe : '|' ∉ name)
    (hc_pipe : '|' ∉ command) : ∀ e ∈ upsertEntries v name command, '|' ∉ e := by
  intro e he
  unfold upsertEntries at he
  rcases List.mem_append.mp he with h1 | h1
  · exact mem_pySplitOn_no_sep (List.mem_of_mem_filter h1)
  · simp at h1
    subst h1
    intro hm
    rcases List.mem_append.mp hm with h2 | h2
    · exact hn_pipe h2
    · rcases List.mem_cons.mp h2 with h3 | h3
      · exact absurd h3.symm (by decide)
      · exact hc_pipe h3

theorem upsertEntries_roundtrip {name command : Str} (v : Str) (hn_pipe : '|' ∉ name)
    (hc_pipe : '|' ∉ command) :
    pySplitOn '|' (pyJoin '|' (upsertEntries v name command)) =
      upsertEntries v name command :=
  pySplitOn_pyJoin (upsertEntries_ne_nil v name command)
    (upsertEntries_no_pipe v hn_pipe hc_pipe)

theorem upsertEntries_countP_one {name : Str} (v command : Str) (hn_eq : '=' ∉ name)
    (hwf : ∀ e ∈ pySplitOn '|' v, e ≠ [] → '=' ∈ e) :
    (upsertEntries v name command).countP (fun e => entryName e == name) = 1 := by
  unfold upsertEntries
  rw [List.countP_append]
  have h1 : (keepEntries v name).countP (fun e => entryName e == name) = 0 := by
    rw [List.countP_eq_zero]
    intro e he
    simp only [beq_iff_eq]
    exact mem_keepEntries_name hn_eq hwf e he
  have h2 : ([name ++ '=' :: command] : List Str).countP
      (fun e => entryName e == name) = 1 := by
    simp [List.countP_cons, entryName_pair command hn_eq]
  rw [h1, h2]

theorem keepEntries_upsert_fixed {name command : Str} (v : Str) (hn_pipe : '|' ∉ name)
    (hc_pipe : '|' ∉ command) :
    keepEntries (pyJoin '|' (upsertEntries v name command)) name =
      keepEntries v name := by
  have h1 : (keepEntries v name).filter
      (fun e => !e.isEmpty && !((name ++ ['=']).isPrefixOf e)) = keepEntries v name := by
    rw [List.filter_eq_self]
    intro e he
    unfold keepEntries at he
    exact (List.mem_filter.mp he).2
  have h2 : ([name ++ '=' :: command] : List Str).filter
      (fun e => !e.isEmpty && !((name ++ ['=']).isPrefixOf e)) = [] := by
    have hpfx : (name ++ ['=']).isPrefixOf (name ++ '=' :: command) = true := by
      rw [ List.isPrefixOf_iff_prefix]
      exact ⟨command, by simp⟩
    simp [List.filter_cons, hpfx]
  have hmain : keepEntries (pyJoin '|' (upsertEntries v name command)) name =
      (keepEntries v name ++ [name ++ '=' :: command]).filter
        (fun e => !e.isEmpty && !((name ++ ['=']).isPrefixOf e)) := by
    show (pySplitOn '|' (pyJoin '|' (upsertEntries v name command))).filter
        (fun e => !e.isEmpty && !((name ++ ['=']).isPrefixOf e)) = _
    rw [upsertEntries_roundtrip v hn_pipe hc_pipe]
    rfl
  rw [hmain, List.filter_append, h1, h2, List.append_nil]

theorem mcp_add_server_of_search {content pre m v post : Str} (name command : Str)
    (h : searchMcp content = some (pre, m, v, post)) :
    mcp_add_server content name command =
      pre ++ canonPfx ++ pyJoin '|' (upsertEntries v name command) ++ '"' :: post := by
  unfold mcp_add_server
  rw [h]

/-! ## Claim theorems -/

/-- C1: for every config document containing an `mcp_servers` composite line
(and inputs respecting the documented composite-value shape: names contain
no `=` or `|`, commands no `|`, stored entries are `name=command` pairs with
unique names), `mcp_add_server (name, command)` returns the document whose
composite value recomposes from `upsertEntries`; the recomposed value
decomposes back to exactly those entries, contains exactly one entry whose
name part equals `name`, that entry is `name=command` and is last, every
original pair with a different name is still present, and names remain
unique. -/
theorem c1_upsert_replaces_and_keeps_unique
    (content name command pre m v post : Str)
    (hsearch : searchMcp content = some (pre, m, v, post))
    (hn_eq : '=' ∉ name) (hn_pipe : '|' ∉ name) (hc_pipe : '|' ∉ command)
    (hwf : ∀ e ∈ pySplitOn '|' v, e ≠ [] → '=' ∈ e)
    (huniq : (((pySplitOn '|' v).filter (fun e => !e.isEmpty)).map entryName).Nodup) :
    mcp_add_server content name command =
      pre ++ canonPfx ++ pyJoin '|' (upsertEntries v name command) ++ '"' :: post ∧
    pySplitOn '|' (pyJoin '|' (upsertEntries v name command)) =
      upsertEntries v name command ∧
    (upsertEntries v name command).getLast? = some (name ++ '=' :: command) ∧
    (upsertEntries v name command).countP (fun e => entryName e == name) = 1 ∧
    (∀ e ∈ pySplitOn '|' v, e ≠ [] → entryName e ≠ name →
      e ∈ upsertEntries v name command) ∧
    ((upsertEntries v name command).map entryName).Nodup := by
  have hpair_name : entryName (name ++ '=' :: command) = name := entryName_pair command hn_eq
  have hkeep_name := mem_keepEntries_name hn_eq hwf
  refine ⟨?_, ?_, ?_, ?_, ?_, ?_⟩
  · unfold mcp_add_server
    rw [hsearch]
  · exact upsertEntries_roundtrip v hn_pipe hc_pipe
  · unfold upsertEntries
    exact List.getLast?_concat _
  · exact upsertEntries_countP_one v command hn_eq hwf
  · intro e he hne hname
    unfold upsertEntries
    apply List.mem_append_left
    unfold keepEntries
    rw [List.mem_filter]
    refine ⟨he, ?_⟩
    simp only [Bool.and_eq_true, Bool.not_eq_true']
    constructor
    · simp [List.isEmpty_iff, hne]
    · rcases hpfx : (name ++ ['=']).isPrefixOf e with _ | _
      · rfl
      · exact absurd (entryName_of_startswith hn_eq hpfx) hname
  · unfold upsertEntries
    rw [List.map_append]
    have hmapnd : ((keepEntries v name).map entryName).Nodup := by
      have hkeep : keepEntries v name =
          ((pySplitOn '|' v).filter (fun e => !e.isEmpty)).filter
            (fun e => !((name ++ ['=']).isPrefixOf e)) := by
        unfold keepEntries
        rw [List.filter_filter]
        apply List.filter_congr
        intro e _
        exact (Bool.and_comm _ _).symm
      rw [hkeep]
      exact huniq.sublist (List.Sublist.map entryName (List.filter_sublist _))
    have hnotin : name ∉ (keepEntries v name).map entryName := by
      intro hmem
      rw [List.mem_map] at hmem
      obtain ⟨e, he, hname⟩ := hmem
      exact hkeep_name e he hname
    simp only [List.map_cons, List.map_nil, hpair_name]
    rw [List.nodup_append]
    exact ⟨hmapnd, List.nodup_singleton name, by simpa using hnotin⟩

/-- C1 witness: a concrete document, upserting `b=zz` over value
`a=1|b=2`. -/
theorem c1_witness :
    (upsertEntries ("a=1|b=2".toList) ("b".toList) ("zz".toList)).getLast? =
      some ("b=zz".toList) :=
  (c1_upsert_replaces_and_keeps_unique
    ("x=1\nmcp_servers = \"a=1|b=2\"\ny=3\n".toList) ("b".toList) ("zz".toList)
    ("x=1\n".toList) ("mcp_servers = \"a=1|b=2\"".toList) ("a=1|b=2".toList)
    ("\ny=3\n".toList)
    (by decide) (by decide) (by decide) (by decide) (by decide) (by decide)).2.2.1

/-- C2 counterexample: the claim fails as stated.  In the persisted document
`mcp_servers = "a=1||b=2"` no entry has name `zz`, yet `mcp_remove_server`
with name `zz` reports a removed count of 1 and writes a changed document:
the count is `len(existing.split("|")) - len(entries)` and the entry filter
also drops the empty string piece between the two pipes.  (The same slip
fires on the well-formed empty value `mcp_servers = ""`, whose split is the
single empty piece.) -/
theorem c2_counterexample :
    mcp_remove_server ("mcp_servers = \"a=1||b=2\"\n".toList) ("zz".toList) =
      .removedSome ("mcp_servers = \"a=1|b=2\"\n".toList) 1 ∧
    (∀ e ∈ pySplitOn '|' ("a=1||b=2".toList), entryName e ≠ ("zz".toList)) ∧
    ("mcp_servers = \"a=1|b=2\"\n".toList) ≠ ("mcp_servers = \"a=1||b=2\"\n".toList) := by
  refine ⟨by decide, by decide, by decide⟩

/-- C2 amended: for every persisted document whose `mcp_servers` composite
value has only non-empty pipe-delimited entries, and a requested name that
contains no `=`, if no entry has that exact name (left-hand side of the
first `=`) then `mcp_remove_server` takes the `removed == 0` branch: the
"not found" outcome, count 0, nothing written, document untouched. -/
theorem c2_remove_no_match_not_found (content name pre m v post : Str)
    (hsearch : searchMcp content = some (pre, m, v, post))
    (hn_eq : '=' ∉ name)
    (hne : ∀ e ∈ pySplitOn '|' v, e ≠ [])
    (hnm : ∀ e ∈ pySplitOn '|' v, entryName e ≠ name) :
    mcp_remove_server content name = .notFound := by
  unfold mcp_remove_server
  rw [hsearch]
  have hk : keepEntries v name = pySplitOn '|' v :=
    keepEntries_eq_of_no_match hn_eq hne hnm
  simp [hk]

/-- C2 witness: removing `ab` from a document whose only entry is named
`abc` (a proper prefix collision) is the "not found" outcome. -/
theorem c2_witness :
    mcp_remove_server ("mcp_servers = \"abc=1\"\n".toList) ("ab".toList) = .notFound :=
  c2_remove_no_match_not_found ("mcp_servers = \"abc=1\"\n".toList) ("ab".toList)
    ([] : Str) ("mcp_servers = \"abc=1\"".toList) ("abc=1".toList) ("\n".toList)
    (by decide) (by decide) (by decide) (by decide)

/-- C7: upserting the same pair twice is idempotent, on the documents
themselves: the second `mcp_add_server` finds the canonically rewritten
line (the search-reconstruction lemma), removes exactly the entry it just
appended, and appends it again, reproducing the identical document.  The
decomposed composite pairs of the two results are therefore identical (even
as lists, hence as sets), and the result has exactly one entry for
`name`. -/
theorem c7_upsert_idempotent (content name command pre m v post : Str)
    (hsearch : searchMcp content = some (pre, m, v, post))
    (hn_eq : '=' ∉ name) (hn_pipe : '|' ∉ name) (hn_quote : '"' ∉ name)
    (hn_nl : '\n' ∉ name) (hc_pipe : '|' ∉ command) (hc_quote : '"' ∉ command)
    (hc_nl : '\n' ∉ command)
    (hwf : ∀ e ∈ pySplitOn '|' v, e ≠ [] → '=' ∈ e) :
    mcp_add_server (mcp_add_server content name command) name command =
      mcp_add_server content name command ∧
    searchMcp (mcp_add_server content name command) =
      some (pre,
        canonPfx ++ (pyJoin '|' (upsertEntries v name command) ++ ['"']),
        pyJoin '|' (upsertEntries v name command), post) ∧
    (upsertEntries v name command).countP (fun e => entryName e == name) = 1 := by
  obtain ⟨hvq, hvn⟩ := searchMcp_v_clean hsearch
  have hWq : '"' ∉ pyJoin '|' (upsertEntries v name command) := by
    intro hm
    rcases mem_pyJoin_chars hm with h1 | ⟨e, he, hce⟩
    · exact absurd h1 (by decide)
    · unfold upsertEntries at he
      rcases List.mem_append.mp he with h2 | h2
      · exact hvq (mem_pySplitOn_chars (List.mem_of_mem_filter h2) hce)
      · simp at h2
        subst h2
        rcases List.mem_append.mp hce with h3 | h3
        · exact hn_quote h3
        · rcases List.mem_cons.mp h3 with h4 | h4
          · exact absurd h4 (by decide)
          · exact hc_quote h4
  have hWn : '\n' ∉ pyJoin '|' (upsertEntries v name command) := by
    intro hm
    rcases mem_pyJoin_chars hm with h1 | ⟨e, he, hce⟩
    · exact absurd h1 (by decide)
    · unfold upsertEntries at he
      rcases List.mem_append.mp he with h2 | h2
      · exact hvn (mem_pySplitOn_chars (List.mem_of_mem_filter h2) hce)
      · simp at h2
        subst h2
        rcases List.mem_append.mp hce with h3 | h3
        · exact hn_nl h3
        · rcases List.mem_cons.mp h3 with h4 | h4
          · exact absurd h4 (by decide)
          · exact hc_nl h4
  have hdoc1 : mcp_add_server content name command =
      pre ++ (canonPfx ++ (pyJoin '|' (upsertEntries v name command) ++ '"' :: post)) := by
    unfold mcp_add_server
    rw [hsearch]
    simp
  have hsearch1 : searchMcp (mcp_add_server content name command) =
      some (pre,
        canonPfx ++ (pyJoin '|' (upsertEntries v name command) ++ ['"']),
        pyJoin '|' (upsertEntries v name command), post) := by
    rw [hdoc1]
    exact searchMcp_replace hsearch hWq hWn
  refine ⟨?_, hsearch1, upsertEntries_countP_one v command hn_eq hwf⟩
  have hfix : upsertEntries (pyJoin '|' (upsertEntries v name command)) name command
      = upsertEntries v name command := by
    show keepEntries (pyJoin '|' (upsertEntries v name command)) name ++
        [name ++ '=' :: command] = keepEntries v name ++ [name ++ '=' :: command]
    rw [keepEntries_upsert_fixed v hn_pipe hc_pipe]
  rw [mcp_add_server_of_search name command hsearch1, hfix, hdoc1]
  simp

/-- C7 witness: two successive upserts of `b=zz` over a concrete document
give syntactically identical documents. -/
theorem c7_witness :
    mcp_add_server
        (mcp_add_server ("x=1\nmcp_servers = \"a=1|b=2\"\ny=3\n".toList)
          ("b".toList) ("zz".toList)) ("b".toList) ("zz".toList) =
      mcp_add_server ("x=1\nmcp_servers = \"a=1|b=2\"\ny=3\n".toList)
        ("b".toList) ("zz".toList) :=
  (c7_upsert_idempotent
    ("x=1\nmcp_servers = \"a=1|b=2\"\ny=3\n".toList) ("b".toList) ("zz".toList)
    ("x=1\n".toList) ("mcp_servers = \"a=1|b=2\"".toList) ("a=1|b=2".toList)
    ("\ny=3\n".toList)
    (by decide) (by decide) (by decide) (by decide) (by decide) (by decide)
    (by decide) (by decide) (by decide)).1

/-- C4: `_run` never raises for the enumerated failure modes: it is a total
function of the subprocess outcome, and it classifies the outcomes through
its result fields.  A missing executable (`FileNotFoundError e`) gives
`ok = false`, the sentinel exit status -1, and stderr equal to (hence
containing) the OS error text `str(e)`; an elapsed timeout gives the same
sentinel, `ok = false`, and the synthetic stderr message naming the timeout
duration; on normal completion `ok` is true exactly when the exit status is
0. -/
theorem c4_run_classifies_failures (t : Nat) (out err errText : Str) (code : Int) :
    _run t (.fileNotFound errText) =
      { stdout := [], stderr := errText, returncode := -1, ok := false } ∧
    _run t .timedOut =
      { stdout := [],
        stderr := ("Command timed out after ".toList) ++ natToStr t ++ ("s".toList),
        returncode := -1, ok := false } ∧
    (_run t (.completed out err code)).ok = (code == 0) ∧
    (_run t (.completed out err code)).returncode = code :=
  ⟨rfl, rfl, rfl, rfl⟩

/-- C5: `_format` is a pure function of the result record, and its output is
built in the fixed order stdout, delimited stderr section, exit-code line,
with the placeholder when all three parts are absent.  All eight cases are
listed. -/
theorem c5_format_order (r : RunResult) :
    (r.stdout ≠ [] → r.stderr ≠ [] → r.ok = false →
      _format r = r.stdout ++ '\n' :: ("[stderr]\n".toList) ++ r.stderr ++
        '\n' :: ("[exit code: ".toList) ++ intToStr r.returncode ++ ("]".toList)) ∧
    (r.stdout ≠ [] → r.stderr ≠ [] → r.ok = true →
      _format r = r.stdout ++ '\n' :: ("[stderr]\n".toList) ++ r.stderr) ∧
    (r.stdout ≠ [] → r.stderr = [] → r.ok = false →
      _format r = r.stdout ++ '\n' :: ("[exit code: ".toList) ++
        intToStr r.returncode ++ ("]".toList)) ∧
    (r.stdout ≠ [] → r.stderr = [] → r.ok = true → _format r = r.stdout) ∧
    (r.stdout = [] → r.stderr ≠ [] → r.ok = false →
      _format r = ("[stderr]\n".toList) ++ r.stderr ++
        '\n' :: ("[exit code: ".toList) ++ intToStr r.returncode ++ ("]".toList)) ∧
    (r.stdout = [] → r.stderr ≠ [] → r.ok = true →
      _format r = ("[stderr]\n".toList) ++ r.stderr) ∧
    (r.stdout = [] → r.stderr = [] → r.ok = false →
      _format r = ("[exit code: ".toList) ++ intToStr r.returncode ++ ("]".toList)) ∧
    (r.stdout = [] → r.stderr = [] → r.ok = true → _format r = ("(no output)".toList)) := by
  refine ⟨?_, ?_, ?_, ?_, ?_, ?_, ?_, ?_⟩ <;> intro h1 h2 h3 <;> unfold _format
  · simp [List.isEmpty_eq_false.mpr h1, List.isEmpty_eq_false.mpr h2, h3, pyJoin]
  · simp [List.isEmpty_eq_false.mpr h1, List.isEmpty_eq_false.mpr h2, h3, pyJoin]
  · simp [List.isEmpty_eq_false.mpr h1, h2, h3, pyJoin]
  · simp [List.isEmpty_eq_false.mpr h1, h2, h3, pyJoin]
  · simp [h1, List.isEmpty_eq_false.mpr h2, h3, pyJoin]
  · simp [h1, List.isEmpty_eq_false.mpr h2, h3, pyJoin]
  · simp [h1, h2, h3, pyJoin]
  · simp [h1, h2, h3, pyJoin]

/-- C5 witness: the all-empty successful result formats to the fixed
placeholder. -/
theorem c5_witness :
    _format ⟨[], [], (0 : Int), true⟩ = ("(no output)".toList) :=
  (c5_format_order ⟨[], [], (0 : Int), true⟩).2.2.2.2.2.2.2 rfl rfl rfl

/-- C8: `memory_delete_prefix` deletes exactly the `*.md` entries whose stem
starts with the prefix (ordinary list prefix on the key) and reports their
count; a missing directory reports 0 without touching anything, zero matches
leave the directory unchanged with count 0, and an immediate repeat of the
same call reports 0. -/
theorem c8_memory_delete_prefix_exact (pfx : Str) (files : List Str) :
    memory_delete_prefix none pfx = (none, 0) ∧
    ( memory_delete_prefix (some files) pfx).1 =
      some (files.filter (fun f => !(matchesStarMd f && pfx.isPrefixOf (stem f)))) ∧
    ( memory_delete_prefix (some files) pfx).2 =
      files.countP (fun f => matchesStarMd f && pfx.isPrefixOf (stem f)) ∧
    ((∀ f ∈ files, ¬ (matchesStarMd f = true ∧ pfx.isPrefixOf (stem f) = true)) →
      memory_delete_prefix (some files) pfx = (some files, 0)) ∧
    memory_delete_prefix ( memory_delete_prefix (some files) pfx).1 pfx =
      (( memory_delete_prefix (some files) pfx).1, 0) := by
  refine ⟨rfl, rfl, ?_, ?_, ?_⟩
  · show (files.filter (fun f => matchesStarMd f && pfx.isPrefixOf (stem f))).length = _
    rw [List.countP_eq_length_filter]
  · intro hnone
    have h1 : files.filter (fun f => !(matchesStarMd f && pfx.isPrefixOf (stem f))) =
        files := by
      rw [List.filter_eq_self]
      intro f hf
      simp only [Bool.not_eq_true', Bool.and_eq_false_iff]
      by_cases hmd : matchesStarMd f
      · right
        rcases hp : pfx.isPrefixOf (stem f) with _ | _
        · rfl
        · exact absurd ⟨hmd, hp⟩ (hnone f hf)
      · left
        simpa using hmd
    have h2 : files.filter (fun f => matchesStarMd f && pfx.isPrefixOf (stem f)) = [] := by
      rw [List.filter_eq_nil_iff]
      intro f hf
      simp only [Bool.and_eq_true, not_and]
      intro hmd hp
      exact (hnone f hf) ⟨hmd, hp⟩
    show (some (files.filter (fun f => !(matchesStarMd f && pfx.isPrefixOf (stem f)))),
        (files.filter (fun f => matchesStarMd f && pfx.isPrefixOf (stem f))).length) =
      (some files, 0)
    rw [h1, h2]
    rfl
  · have h2 : (files.filter (fun f => !(matchesStarMd f && pfx.isPrefixOf (stem f)))).filter
        (fun f => matchesStarMd f && pfx.isPrefixOf (stem f)) = [] := by
      rw [List.filter_eq_nil_iff]
      intro f hf
      have := (List.mem_filter.mp hf).2
      simp only [Bool.not_eq_true'] at this
      simp [this]
    have h1 : (files.filter (fun f => !(matchesStarMd f && pfx.isPrefixOf (stem f)))).filter
        (fun f => !(matchesStarMd f && pfx.isPrefixOf (stem f))) =
        files.filter (fun f => !(matchesStarMd f && pfx.isPrefixOf (stem f))) := by
      rw [List.filter_eq_self]
      intro f hf
      exact (List.mem_filter.mp hf).2
    show (some ((files.filter (fun f => !(matchesStarMd f && pfx.isPrefixOf (stem f)))).filter
          (fun f => !(matchesStarMd f && pfx.isPrefixOf (stem f)))),
        ((files.filter (fun f => !(matchesStarMd f && pfx.isPrefixOf (stem f)))).filter
          (fun f => matchesStarMd f && pfx.isPrefixOf (stem f))).length) =
      (some (files.filter (fun f => !(matchesStarMd f && pfx.isPrefixOf (stem f)))), 0)
    rw [h1, h2]
    rfl

/-- C8 witness: deleting prefix `session-` from a directory holding
`session-1.md`, `session-2.md`, `notes.md` and `x.txt` removes exactly the
two session entries; repeating the call reports 0. -/
theorem c8_witness :
    memory_delete_prefix
        (some [("session-1.md".toList), ("session-2.md".toList),
               ("notes.md".toList), ("x.txt".toList)]) ("session-".toList) =
      (some [("notes.md".toList), ("x.txt".toList)], 2) ∧
    memory_delete_prefix (some [("notes.md".toList), ("x.txt".toList)])
        ("session-".toList) =
      (some [("notes.md".toList), ("x.txt".toList)], 0) := by
  constructor
  · decide
  · exact (c8_memory_delete_prefix_exact ("session-".toList)
      [("notes.md".toList), ("x.txt".toList)]).2.2.2.1 (by decide)

/-- C10: with the empty prefix every `*.md` entry is deleted (the glob
pattern `*.md` matches exactly the names ending in `.md`) and the reported
count is the number of those entries; for every prefix, a file not matching
`*.md` survives and is never counted: the count ranges only over the `*.md`
files. -/
theorem c10_empty_prefix_deletes_all (files : List Str) (pfx : Str) :
    memory_delete_prefix (some files) [] =
      (some (files.filter (fun f => !matchesStarMd f)),
        (files.filter matchesStarMd).length) ∧
    ( memory_delete_prefix (some files) pfx).2 =
      ((files.filter matchesStarMd).filter (fun f => pfx.isPrefixOf (stem f))).length ∧
    (∀ f ∈ files, matchesStarMd f = false →
      ∃ g, ( memory_delete_prefix (some files) pfx).1 = some g ∧ f ∈ g) := by
  have h1 : ∀ f : Str, (matchesStarMd f && List.isPrefixOf [] (stem f)) =
      matchesStarMd f := by
    intro f
    simp [List.isPrefixOf]
  refine ⟨?_, ?_, ?_⟩
  · have e1 : files.filter (fun f => !(matchesStarMd f && List.isPrefixOf [] (stem f))) =
        files.filter (fun f => !matchesStarMd f) := by
      apply List.filter_congr
      intro f _
      rw [h1]
    have e2 : files.filter (fun f => matchesStarMd f && List.isPrefixOf [] (stem f)) =
        files.filter matchesStarMd := by
      apply List.filter_congr
      intro f _
      rw [h1]
    show (some (files.filter (fun f => !(matchesStarMd f && List.isPrefixOf [] (stem f)))),
        (files.filter (fun f => matchesStarMd f && List.isPrefixOf [] (stem f))).length) = _
    rw [e1, e2]
  · show (files.filter (fun f => matchesStarMd f && pfx.isPrefixOf (stem f))).length = _
    rw [List.filter_filter]
    congr 1
    apply List.filter_congr
    intro f _
    rw [Bool.and_comm]
  · intro f hf hmd
    refine ⟨files.filter (fun g => !(matchesStarMd g && pfx.isPrefixOf (stem g))),
      rfl, ?_⟩
    rw [List.mem_filter]
    exact ⟨hf, by simp [hmd]⟩

/-- C10 witness: with the empty prefix, `a.md` and `.hidden.md` are deleted
and counted while `notes.txt` survives, and the non-md file survives any
prefix. -/
theorem c10_witness :
    memory_delete_prefix
        (some [("a.md".toList), (".hidden.md".toList), ("notes.txt".toList)]) [] =
      (some [("notes.txt".toList)], 2) ∧
    (∃ g, ( memory_delete_prefix
        (some [("a.md".toList), (".hidden.md".toList), ("notes.txt".toList)])
        ("a".toList)).1 = some g ∧ ("notes.txt".toList) ∈ g) := by
  constructor
  · exact (c10_empty_prefix_deletes_all
      [("a.md".toList), (".hidden.md".toList), ("notes.txt".toList)] []).1.trans
      (by decide)
  · exact (c10_empty_prefix_deletes_all
      [("a.md".toList), (".hidden.md".toList), ("notes.txt".toList)]
      ("a".toList)).2.2 ("notes.txt".toList) (by decide) (by decide)

set_option maxHeartbeats 1000000 in
theorem pySplitlines_ne_nil {s : Str} (h : s ≠ []) : pySplitlines s ≠ [] := by
  cases s with
  | nil => exact absurd rfl h
  | cons c cs =>
    unfold pySplitlines
    split
    next heq => simp at heq
    next => simp
    next =>
      split
      · simp
      · exact consHead_ne_nil _ _

theorem pySliceFrom_neg {n : Int} (l : List Str) (hn : 1 ≤ n) :
    pySliceFrom (-n) l = l.drop (l.length - n.toNat) := by
  unfold pySliceFrom
  rw [if_pos (by omega : -n < 0)]
  congr 1
  omega

/-- C3 counterexample: the claim fails as stated for the requested count 0.
On the two-line file `a\nb`, the slice `lines[-0:]` is the whole list, so
`audit_log_read` returns both lines, while the claim requires the last
`min(0, 2) = 0` lines. -/
theorem c3_counterexample :
    audit_log_read (some ("a\nb".toList)) 0 = ("a\nb".toList) ∧
    pySplitlines (audit_log_read (some ("a\nb".toList)) 0) =
      [("a".toList), ("b".toList)] ∧
    min ((0 : Int)).toNat (pySplitlines ("a\nb".toList)).length = 0 := by
  refine ⟨by decide, by decide, by decide⟩

/-- C3 amended: for every requested count `n ≥ 1`, `audit_log_read` on an
existing file returns the last `min(n, L)` lines joined in original order
(expressed as dropping `L - n` leading lines; the final conjunct states that
exactly `min(n, L)` lines remain); a missing file gives the distinct "not
yet created" signal and an existing empty file the distinct "empty"
signal. -/
theorem c3_tail_lines (content : Str) (n : Int) (hn : 1 ≤ n) :
    audit_log_read none n = ("(audit log not yet created)".toList) ∧
    (content = [] → audit_log_read (some content) n = ("(audit log is empty)".toList)) ∧
    (content ≠ [] →
      audit_log_read (some content) n =
        pyJoin '\n' ((pySplitlines content).drop
          ((pySplitlines content).length - n.toNat)) ∧
      ((pySplitlines content).drop ((pySplitlines content).length - n.toNat)).length =
        min n.toNat (pySplitlines content).length) := by
  refine ⟨rfl, ?_, ?_⟩
  · intro h
    subst h
    have hcond : ¬(((pySplitlines ([] : Str)).length : Int) > n) := by
      show ¬((((0 : Nat) : Int)) > n)
      omega
    simp only [audit_log_read]
    rw [if_neg hcond]
    rfl
  · intro hne
    have hl : pySplitlines content ≠ [] := pySplitlines_ne_nil hne
    have hlen : 0 < (pySplitlines content).length := List.length_pos.mpr hl
    constructor
    · simp only [audit_log_read]
      by_cases hc : ((pySplitlines content).length : Int) > n
      · rw [if_pos hc, pySliceFrom_neg _ hn]
        have hdroplen : ((pySplitlines content).drop
            ((pySplitlines content).length - n.toNat)).length = n.toNat := by
          rw [List.length_drop]
          omega
        have hne2 : ¬(((pySplitlines content).drop
            ((pySplitlines content).length - n.toNat)).isEmpty = true) := by
          rw [List.isEmpty_iff]
          intro h0
          rw [h0] at hdroplen
          simp at hdroplen
          omega
        rw [if_neg hne2]
      · rw [if_neg hc]
        have h0 : (pySplitlines content).length - n.toNat = 0 := by omega
        have hne2 : ¬((pySplitlines content).isEmpty = true) := by
          rw [List.isEmpty_iff]
          exact hl
        rw [h0, List.drop_zero, if_neg hne2]
    · rw [List.length_drop]
      omega

/-- C3 witness: the amended claim at a three-line file with requested count
5, plus both distinct signals. -/
theorem c3_witness :
    audit_log_read none 5 = ("(audit log not yet created)".toList) ∧
    audit_log_read (some ([] : Str)) 5 = ("(audit log is empty)".toList) ∧
    audit_log_read (some ("a\nb\nc".toList)) 5 = ("a\nb\nc".toList) := by
  refine ⟨(c3_tail_lines ([] : Str) 5 (by decide)).1,
    (c3_tail_lines ([] : Str) 5 (by decide)).2.1 rfl, ?_⟩
  exact ((c3_tail_lines ("a\nb\nc".toList) 5 (by decide)).2.2 (by decide)).1.trans
    (by decide)

/-! ## Lemmas about the environment model -/

theorem envLookup_cons (k0 v0 : Str) (t : List (Str × Str)) (k : Str) :
    envLookup ((k0, v0) :: t) k = if k0 = k then some v0 else envLookup t k := rfl

theorem envSet_cons (k0 v0 : Str) (t : List (Str × Str)) (k v : Str) :
    envSet ((k0, v0) :: t) k v =
      if k0 = k then (k0, v) :: t else (k0, v0) :: envSet t k v := rfl

theorem envLookup_append_some {e : List (Str × Str)} {k : Str} {v : Str}
    (t : List (Str × Str)) (h : envLookup e k = some v) :
    envLookup (e ++ t) k = some v := by
  induction e with
  | nil => simp [envLookup] at h
  | cons p e' ih =>
    obtain ⟨k0, v0⟩ := p
    rw [envLookup_cons] at h
    rw [List.cons_append, envLookup_cons]
    by_cases hk : k0 = k
    · rw [if_pos hk] at h ⊢; exact h
    · rw [if_neg hk] at h ⊢; exact ih h

theorem envLookup_append_none {e : List (Str × Str)} {k : Str}
    (t : List (Str × Str)) (h : envLookup e k = none) :
    envLookup (e ++ t) k = envLookup t k := by
  induction e with
  | nil => rfl
  | cons p e' ih =>
    obtain ⟨k0, v0⟩ := p
    rw [envLookup_cons] at h
    rw [List.cons_append, envLookup_cons]
    by_cases hk : k0 = k
    · rw [if_pos hk] at h; simp at h
    · rw [if_neg hk] at h ⊢; exact ih h

theorem envLookup_envSet_ne {e : List (Str × Str)} {k0 k : Str} (v0 : Str)
    (h : k0 ≠ k) : envLookup (envSet e k0 v0) k = envLookup e k := by
  induction e with
  | nil => simp [envSet, envLookup, h]
  | cons p e' ih =>
    obtain ⟨k1, v1⟩ := p
    rw [envSet_cons]
    by_cases hk : k1 = k0
    · rw [if_pos hk, envLookup_cons, envLookup_cons,
        if_neg (by rw [hk]; exact h), if_neg (by rw [hk]; exact h)]
    · rw [if_neg hk, envLookup_cons, envLookup_cons]
      by_cases hk2 : k1 = k
      · rw [if_pos hk2, if_pos hk2]
      · rw [if_neg hk2, if_neg hk2]
        exact ih

theorem envSetdefault_lookup_some {e : List (Str × Str)} {k v : Str} (k0 v0 : Str)
    (h : envLookup e k = some v) : envLookup (envSetdefault e k0 v0) k = some v := by
  unfold envSetdefault
  rcases h0 : envLookup e k0 with _ | w
  · exact envLookup_append_some _ h
  · exact h

theorem dotenvStep_lookup_some {e : List (Str × Str)} {k v : Str} (line : Str)
    (h : envLookup e k = some v) : envLookup (dotenvStep e line) k = some v := by
  unfold dotenvStep
  rcases parseDotenvLine line with _ | ⟨k0, v0⟩
  · exact h
  · exact envSetdefault_lookup_some k0 v0 h

theorem foldl_dotenvStep_some {k v : Str} (lines : List Str) :
    ∀ e : List (Str × Str), envLookup e k = some v →
      envLookup (lines.foldl dotenvStep e) k = some v := by
  induction lines with
  | nil => intro e h; exact h
  | cons line rest ih =>
    intro e h
    exact ih _ (dotenvStep_lookup_some line h)

theorem foldl_dotenvStep_none {k : Str} (lines : List Str) :
    ∀ e : List (Str × Str), envLookup e k = none →
      envLookup (lines.foldl dotenvStep e) k =
        lines.findSome? (fun line =>
          match parseDotenvLine line with
          | some (k0, v) => if k0 = k then some v else none
          | none => none) := by
  induction lines with
  | nil => intro e h; exact h
  | cons line rest ih =>
    intro e h
    rw [List.foldl_cons, List.findSome?_cons]
    rcases hp : parseDotenvLine line with _ | ⟨k0, v0⟩
    · have hstep : dotenvStep e line = e := by unfold dotenvStep; rw [hp]
      rw [hstep]
      simp only [hp]
      exact ih e h
    · by_cases hk : k0 = k
      · have h1 : envLookup e k0 = none := by rw [hk]; exact h
        have hstep : dotenvStep e line = e ++ [(k0, v0)] := by
          unfold dotenvStep
          rw [hp]
          show envSetdefault e k0 v0 = e ++ [(k0, v0)]
          unfold envSetdefault
          rw [h1]
        rw [hstep]
        simp only [hp, if_pos hk]
        apply foldl_dotenvStep_some
        rw [envLookup_append_none _ h, envLookup_cons, if_pos hk]
      · have hnew : envLookup (dotenvStep e line) k = none := by
          unfold dotenvStep
          rw [hp]
          show envLookup (envSetdefault e k0 v0) k = none
          unfold envSetdefault
          rcases h0 : envLookup e k0 with _ | w
          · show envLookup (e ++ [(k0, v0)]) k = none
            rw [envLookup_append_none _ h, envLookup_cons, if_neg hk]
            rfl
          · show envLookup e k = none
            exact h
        simp only [hp, if_neg hk]
        exact ih _ hnew

/-- C9 counterexample: the claim fails as stated.  `run_integration_test_discord`
overwrites the `BINARY` variable before loading `.env`, so an inherited
`BINARY` value does not survive into the child environment even though the
key was already present in the inherited mapping. -/
theorem c9_counterexample :
    ¬ (∀ (bp : Str) (inherited : List (Str × Str)) (v : Str),
        envLookup inherited ("BINARY".toList) = some v →
        envLookup (integrationChildEnv bp inherited none) ("BINARY".toList) = some v) := by
  intro h
  have h1 := h ("p".toList) [(("BINARY".toList), ("x".toList))] ("x".toList) (by decide)
  have h2 : envLookup (integrationChildEnv ("p".toList)
      [(("BINARY".toList), ("x".toList))] none) ("BINARY".toList) =
      some ("p".toList) := by decide
  exact absurd (h2.symm.trans h1) (by decide)

/-- C9 amended: the `.env` loading in `run_integration_test_discord` never
overrides an already-set variable, for every key other than `BINARY` (which
the handler itself overwrites before the loading loop): an inherited binding
keeps its inherited value in the child environment, and a key absent from
the inherited mapping receives the value of the first `.env` line defining
it, with surrounding whitespace and quotes stripped (`none` when no line
defines it). -/
theorem c9_dotenv_no_override (bp : Str) (inherited : List (Str × Str))
    (dotenv : Option Str) (k : Str) (hk : k ≠ ("BINARY".toList)) :
    (∀ v, envLookup inherited k = some v →
      envLookup (integrationChildEnv bp inherited dotenv) k = some v) ∧
    (envLookup inherited k = none →
      envLookup (integrationChildEnv bp inherited dotenv) k =
        (match dotenv with
         | none => none
         | some content => dotenvValue content k)) := by
  have hset : envLookup (envSet inherited ("BINARY".toList) bp) k =
      envLookup inherited k :=
    envLookup_envSet_ne bp (fun h => hk h.symm)
  constructor
  · intro v hv
    rcases dotenv with _ | content
    · show envLookup (envSet inherited ("BINARY".toList) bp) k = some v
      rw [hset]; exact hv
    · show envLookup ((pySplitlines content).foldl dotenvStep
        (envSet inherited ("BINARY".toList) bp)) k = some v
      exact foldl_dotenvStep_some _ _ (by rw [hset]; exact hv)
  · intro hnone
    rcases dotenv with _ | content
    · show envLookup (envSet inherited ("BINARY".toList) bp) k = none
      rw [hset]; exact hnone
    · show envLookup ((pySplitlines content).foldl dotenvStep
        (envSet inherited ("BINARY".toList) bp)) k = dotenvValue content k
      exact foldl_dotenvStep_none _ _ (by rw [hset]; exact hnone)

/-- C9 witness: with inherited `HOME=h` and a `.env` defining both `HOME`
and a fresh quoted `TOK`, the child keeps the inherited `HOME` and receives
the quote-stripped `TOK`. -/
theorem c9_witness :
    envLookup (integrationChildEnv ("p".toList) [(("HOME".toList), ("h".toList))]
        (some ("TOK=\"abc\"\nHOME=zzz\n".toList))) ("HOME".toList) =
      some ("h".toList) ∧
    envLookup (integrationChildEnv ("p".toList) [(("HOME".toList), ("h".toList))]
        (some ("TOK=\"abc\"\nHOME=zzz\n".toList))) ("TOK".toList) =
      some ("abc".toList) := by
  constructor
  · exact (c9_dotenv_no_override ("p".toList) [(("HOME".toList), ("h".toList))]
      (some ("TOK=\"abc\"\nHOME=zzz\n".toList)) ("HOME".toList) (by decide)).1
      ("h".toList) (by decide)
  · exact ((c9_dotenv_no_override ("p".toList) [(("HOME".toList), ("h".toList))]
      (some ("TOK=\"abc\"\nHOME=zzz\n".toList)) ("TOK".toList) (by decide)).2
      (by decide)).trans (by decide)

theorem splitNl_frame {mid : Str} (pre post : Str) {h0 : Str} {t0 ps0 : List Str}
    (hmid : '\n' ∉ mid) (hpost : pySplitOn '\n' post = h0 :: t0)
    (hps0 : pySplitOn '\n' pre = ps0 ++ [[]]) :
    pySplitOn '\n' (pre ++ mid ++ post) = ps0 ++ (mid ++ h0) :: t0 := by
  rw [pySplitOn_append '\n' (pre ++ mid) post, pySplitOn_append '\n' pre mid,
    pySplitOn_no_sep hmid, hpost, hps0, joinLast_snoc]
  simp only [List.nil_append]
  rw [joinLast_snoc]

theorem pre_split_snoc {pre : Str} (h : pre = [] ∨ pre.getLast? = some '\n') :
    ∃ ps0, pySplitOn '\n' pre = ps0 ++ [[]] := by
  rcases h with h | h
  · subst h
    exact ⟨[], rfl⟩
  · exact pySplitOn_getLast_nil h

/-- C6 counterexample: the claim fails as stated in the absent-line case.
On the document `a=1 \n` (trailing space, no `mcp_servers` line) the code
first strips trailing whitespace and then appends, so the original document
is not a prefix of the result and the original line `a=1 ` is no longer one
of the result lines: the operation did more than append a new line at
end-of-document. -/
theorem c6_counterexample :
    searchMcp ("a=1 \n".toList) = none ∧
    mcp_add_server ("a=1 \n".toList) ("n".toList) ("c".toList) =
      ("a=1\nmcp_servers = \"n=c\"\n".toList) ∧
    ¬ (("a=1 \n".toList).isPrefixOf
        (mcp_add_server ("a=1 \n".toList) ("n".toList) ("c".toList)) = true) ∧
    ("a=1 ".toList) ∈ pySplitOn '\n' ("a=1 \n".toList) ∧
    ("a=1 ".toList) ∉
      pySplitOn '\n' (mcp_add_server ("a=1 \n".toList) ("n".toList) ("c".toList)) := by
  refine ⟨by decide, by decide, by decide, by decide, by decide⟩

/-- C6 amended: when the composite line exists and the matched span lies
within one line, `mcp_add_server` replaces exactly that span (canonicalising
it to `mcp_servers = "<value>"` and keeping any same-line text after the
closing quote), so the document has the same number of lines and every
other line is byte-identical: the line decompositions differ only in the
one position holding the match.  When the composite line does not exist,
the code strips trailing whitespace from the document and then appends the
line defining the field with exactly the one upserted pair, followed by a
final newline. -/
theorem c6_add_server_frame (content name command : Str)
    (hn_nl : '\n' ∉ name) (hc_nl : '\n' ∉ command) :
    (∀ pre m v post, searchMcp content = some (pre, m, v, post) → '\n' ∉ m →
      ∃ ps h t,
        pySplitOn '\n' content = ps ++ (m ++ h) :: t ∧
        pySplitOn '\n' (mcp_add_server content name command) =
          ps ++ ((canonPfx ++ (pyJoin '|' (upsertEntries v name command) ++ ['"'])) ++ h)
            :: t) ∧
    (searchMcp content = none →
      mcp_add_server content name command =
        pyRstrip content ++
          ('\n' :: ((canonPfx ++ (name ++ '=' :: command ++ ['"'])) ++ ['\n'])) ∧
      pySplitOn '\n' (mcp_add_server content name command) =
        pySplitOn '\n' (pyRstrip content) ++
          [canonPfx ++ (name ++ '=' :: command ++ ['"']), []]) := by
  constructor
  · intro pre m v post hsearch hm_nl
    obtain ⟨hs, hmt, hlast⟩ := searchMcp_some hsearch
    obtain ⟨hvq, hvn⟩ := searchMcp_v_clean hsearch
    have hWn : '\n' ∉ canonPfx ++ (pyJoin '|' (upsertEntries v name command) ++ ['"']) := by
      intro hm
      rcases List.mem_append.mp hm with h1 | h1
      · exact absurd h1 (by decide)
      · rcases List.mem_append.mp h1 with h2 | h2
        · rcases mem_pyJoin_chars h2 with h3 | ⟨e, he, hce⟩
          · exact absurd h3 (by decide)
          · unfold upsertEntries at he
            rcases List.mem_append.mp he with h4 | h4
            · exact hvn (mem_pySplitOn_chars (List.mem_of_mem_filter h4) hce)
            · simp at h4
              subst h4
              rcases List.mem_append.mp hce with h5 | h5
              · exact hn_nl h5
              · rcases List.mem_cons.mp h5 with h6 | h6
                · exact absurd h6 (by decide)
                · exact hc_nl h6
        · exact absurd h2 (by decide)
    have hpre : pre = [] ∨ pre.getLast? = some '\n' := by
      by_cases h0 : pre = []
      · exact Or.inl h0
      · exact Or.inr (hlast h0)
    obtain ⟨ps0, hps0⟩ := pre_split_snoc hpre
    obtain ⟨h0, t0, hpost⟩ : ∃ h0 t0, pySplitOn '\n' post = h0 :: t0 := by
      rcases hp : pySplitOn '\n' post with _ | ⟨h0, t0⟩
      · exact absurd hp (pySplitOn_ne_nil '\n' post)
      · exact ⟨h0, t0, rfl⟩
    refine ⟨ps0, h0, t0, ?_, ?_⟩
    · rw [hs]
      exact splitNl_frame pre post hm_nl hpost hps0
    · have hdoc : mcp_add_server content name command =
          pre ++ (canonPfx ++ (pyJoin '|' (upsertEntries v name command) ++ ['"'])) ++
            post := by
        rw [mcp_add_server_of_search name command hsearch]
        simp
      rw [hdoc]
      exact splitNl_frame pre post hWn hpost hps0
  · intro hnone
    have hLn : '\n' ∉ canonPfx ++ (name ++ '=' :: command ++ ['"']) := by
      intro hm
      rcases List.mem_append.mp hm with h1 | h1
      · exact absurd h1 (by decide)
      · rcases List.mem_append.mp h1 with h2 | h2
        · rcases List.mem_append.mp h2 with h3 | h3
          · exact hn_nl h3
          · rcases List.mem_cons.mp h3 with h4 | h4
            · exact absurd h4 (by decide)
            · exact hc_nl h4
        · rcases List.mem_cons.mp h2 with h4 | h4
          · exact absurd h4 (by decide)
          · simp at h4
    have hshape : mcp_add_server content name command =
        pyRstrip content ++
          ('\n' :: ((canonPfx ++ (name ++ '=' :: command ++ ['"'])) ++ ['\n'])) := by
      unfold mcp_add_server
      rw [hnone]
      simp
    refine ⟨hshape, ?_⟩
    rw [hshape]
    have hmidsplit : pySplitOn '\n'
        ('\n' :: ((canonPfx ++ (name ++ '=' :: command ++ ['"'])) ++ ['\n'])) =
        [] :: (canonPfx ++ (name ++ '=' :: command ++ ['"'])) :: [[]] := by
      rw [pySplitOn_cons, if_pos rfl, pySplitOn_append, pySplitOn_no_sep hLn,
        (by decide : pySplitOn '\n' (['\n'] : Str) = [[], []])]
      simp [joinLast]
    rw [pySplitOn_append, hmidsplit]
    have hA : pySplitOn '\n' (pyRstrip content) ≠ [] :=
      pySplitOn_ne_nil '\n' (pyRstrip content)
    rw [← List.dropLast_append_getLast hA, joinLast_snoc]
    simp

/-- C6 witness: upsert into a document without an `mcp_servers` line: the
result is the stripped document plus the new canonical line and a final
newline, and the line decomposition records the appended line. -/
theorem c6_witness :
    mcp_add_server ("a=1\n".toList) ("n".toList) ("c".toList) =
      pyRstrip ("a=1\n".toList) ++
        ('\n' :: ((canonPfx ++ (("n".toList) ++ '=' :: ("c".toList) ++ ['"'])) ++ ['\n'])) ∧
    pySplitOn '\n' (mcp_add_server ("a=1\n".toList) ("n".toList) ("c".toList)) =
      pySplitOn '\n' (pyRstrip ("a=1\n".toList)) ++
        [canonPfx ++ (("n".toList) ++ '=' :: ("c".toList) ++ ['"']), []] :=
  (c6_add_server_frame ("a=1\n".toList) ("n".toList) ("c".toList)
    (by decide) (by decide)).2 (by decide)

end Bareclaw
